import Mathlib

/-!
Verification of the protocol engine of apt-golang-s3, an APT transport
method that fetches packages from S3.  The development shallowly embeds the
Go sources: the message model (`message/message.go` and its later revision),
the location resolver and response builders (`method/method.go`), and the
dispatch/completion-counting engine (`method/method.go`), and proves the
specification claims about them.

Go strings are modelled as lists of characters (`Str`); the Go standard
library functions used by the sources (`strings.Split`, `strings.Join`,
`strings.TrimSpace`, `strconv.Atoi`, `fmt.Sprintf("%d")`, `strings.Index`,
`strings.ReplaceAll`, `strings.HasSuffix`, `strings.TrimSuffix`) are given
direct recursive definitions below.
-/

/-- Equality of `Except` values is decidable when it is on both sides. -/
instance {ε α : Type} [DecidableEq ε] [DecidableEq α] : DecidableEq (Except ε α) := fun x y =>
  match x, y with
  | .ok a, .ok b =>
    if h : a = b then isTrue (by rw [h]) else isFalse (by simpa using h)
  | .error a, .error b =>
    if h : a = b then isTrue (by rw [h]) else isFalse (by simpa using h)
  | .ok _, .error _ => isFalse (fun h => Except.noConfusion h)
  | .error _, .ok _ => isFalse (fun h => Except.noConfusion h)

/-- Go strings, modelled as lists of characters (runes). -/
abbrev Str := List Char

/-- Embed a Lean string literal as a `Str`. -/
def str (s : String) : Str := s.data

/-- `unicode.IsSpace`: Go's white-space predicate (the Latin-1 white space
characters together with the Unicode `White_Space` code points). -/
def isSpace (c : Char) : Bool :=
  c = ' ' || c = '\t' || c = '\n' || c = '\x0b' || c = '\x0c' || c = '\r' ||
  c = '\x85' || c = '\xa0' ||
  c = ' ' || (' ' ≤ c && c ≤ ' ') ||
  c = ' ' || c = ' ' || c = ' ' || c = ' ' || c = '　'

/-- `strings.Split(s, sep)` for a one-character separator `sep` (the only
form the sources use).  Always returns one part more than the number of
separators; `Split("", sep) = [""]`, as in Go. -/
def goSplit (sep : Char) : Str → List Str
  | [] => [[]]
  | c :: cs =>
    if c = sep then [] :: goSplit sep cs
    else (c :: (goSplit sep cs).headI) :: (goSplit sep cs).tail

/-- `strings.Join(parts, sep)` for a one-character separator. -/
def goJoin (sep : Char) : List Str → Str
  | [] => []
  | [p] => p
  | p :: ps => p ++ sep :: goJoin sep ps

/-- Left half of `strings.TrimSpace`: drop leading white space. -/
def trimLeftWS (l : Str) : Str := l.dropWhile isSpace

/-- Right half of `strings.TrimSpace`: drop trailing white space. -/
def trimRightWS (l : Str) : Str := (l.reverse.dropWhile isSpace).reverse

/-- `strings.TrimSpace`. -/
def goTrimSpace (l : Str) : Str := trimRightWS (trimLeftWS l)

/-- Numeric value of a decimal digit character, `none` otherwise. -/
def digitVal (c : Char) : Option Nat :=
  if '0' ≤ c ∧ c ≤ '9' then some (c.toNat - 48) else none

/-- Value of a non-empty all-digit string, `none` otherwise. -/
def digitsVal (l : Str) : Option Nat :=
  if l = [] then none
  else l.foldl (fun acc c => acc.bind fun a => (digitVal c).map fun d => 10 * a + d) (some 0)

/-- `strconv.Atoi`: optional sign followed by at least one decimal digit.
The Go function additionally range-checks against the machine `int`; the
embedding uses unbounded `Int` (no claim depends on overflow). -/
def goAtoi : Str → Option Int
  | [] => none
  | c :: rest =>
    if c = '-' then (digitsVal rest).map fun n => -(n : Int)
    else if c = '+' then (digitsVal rest).map fun n => (n : Int)
    else (digitsVal (c :: rest)).map fun n => (n : Int)

/-- The decimal digit character for `n < 10`. -/
def digitChar (n : Nat) : Char := Char.ofNat (48 + n)

/-- Decimal digits of `n`, fuelled (any fuel above `n` is enough). -/
def natToDigits : Nat → Nat → Str
  | 0, _ => []
  | fuel + 1, n =>
    if n < 10 then [digitChar n] else natToDigits fuel (n / 10) ++ [digitChar (n % 10)]

/-- `fmt.Sprintf("%d", i)` for a Go `int`. -/
def goItoa (i : Int) : Str :=
  if i < 0 then '-' :: natToDigits (i.natAbs + 1) i.natAbs
  else natToDigits (i.toNat + 1) i.toNat

namespace message

/-- `message.Header`: first line of an APT method-interface message
(`Status` is a Go `int`). -/
structure Header where
  status : Int
  description : Str
deriving DecidableEq

/-- `message.Field`: one `Name: Value` line of a message. -/
structure Field where
  name : Str
  value : Str
deriving DecidableEq

/-- `message.Message`: a header plus an ordered list of fields. -/
structure Message where
  header : Header
  fields : List Field
deriving DecidableEq

/-- `Header.String()`: `fmt.Sprintf("%d %s", h.Status, h.Description)`. -/
def Header.string (h : Header) : Str := goItoa h.status ++ ' ' :: h.description

/-- `Field.String()`: `fmt.Sprintf("%s: %s", f.Name, f.Value)`. -/
def Field.string (f : Field) : Str := f.name ++ ':' :: ' ' :: f.value

/-- `Message.String()`: the header line, then each field line, each
terminated by `"\n"` (identical in `message/message.go` and its revision). -/
def Message.string (m : Message) : Str :=
  Header.string m.header ++ '\n' :: m.fields.foldr (fun f acc => Field.string f ++ '\n' :: acc) []

/-- Parse errors of the message model: `errMsgMissingRequiredLines`, and the
`strconv.Atoi` failure propagated out of `parseHeader`. -/
inductive ParseErr
  | missingLines
  | invalidStatus
deriving DecidableEq

/-- `parseHeader` (identical in both revisions of the message package):
split the trimmed line on single spaces; the first token must parse as an
integer status; the remaining tokens, re-trimmed, joined with single spaces,
form the description. -/
def parseHeader (line : Str) : Except ParseErr Header :=
  let tokens := goSplit ' ' (goTrimSpace line)
  match goAtoi (goTrimSpace tokens.headI) with
  | none => .error .invalidStatus
  | some n => .ok ⟨n, goJoin ' ' ((tokens.drop 1).map goTrimSpace)⟩

/-- `parseField` (identical in both revisions): split the trimmed line on
every colon; the first token is the name; the remaining tokens, re-trimmed
and re-joined with colons, form the value.  Never fails. -/
def parseField (line : Str) : Field :=
  let tokens := goSplit ':' (goTrimSpace line)
  ⟨tokens.headI, goJoin ':' ((tokens.drop 1).map goTrimSpace)⟩

/-- `parseFields` (identical in both revisions). -/
def parseFields (lines : List Str) : List Field := lines.map parseField

/-- `parse` of the current revision (`src/unnamed/part_002`): trim the raw
text, split into lines, fail with `errMsgMissingRequiredLines` when fewer
than two lines remain, else parse the first line as the header and the rest
as fields. -/
def parse (value : Str) : Except ParseErr Message :=
  let lines := goSplit '\n' (goTrimSpace value)
  if lines.length < 2 then .error .missingLines
  else
    match parseHeader lines.headI with
    | .error e => .error e
    | .ok h => .ok ⟨h, parseFields (lines.drop 1)⟩

/-- `parse` of the older revision (`src/message/message.go`): identical to
the current `parse` except that it has no minimum-line-count check. -/
def parseLegacy (value : Str) : Except ParseErr Message :=
  let lines := goSplit '\n' (goTrimSpace value)
  match parseHeader lines.headI with
  | .error e => .error e
  | .ok h => .ok ⟨h, parseFields (lines.drop 1)⟩

/-- `Message.GetFieldValue` (current revision): value of the first field
with the given name, plus a found flag. -/
def getFieldValue (m : Message) (name : Str) : Str × Bool :=
  match m.fields.find? (fun f => decide (f.name = name)) with
  | some f => (f.value, true)
  | none => ([], false)

/-- `Message.GetFieldList`: all fields with the given name, in order. -/
def getFieldList (m : Message) (name : Str) : List Field :=
  m.fields.filter (fun f => decide (f.name = name))

end message

/-- `strings.HasSuffix`. -/
def goHasSuffix (l suf : Str) : Bool :=
  decide (suf.length ≤ l.length) && decide (l.drop (l.length - suf.length) = suf)

/-- `strings.TrimSuffix`. -/
def goTrimSuffix (l suf : Str) : Str :=
  if goHasSuffix l suf then l.take (l.length - suf.length) else l

/-- Scanner for `strings.ReplaceAll` with a non-empty pattern, fuelled (any
fuel above the subject's length is enough): replace every non-overlapping
occurrence of `old`, scanning left to right. -/
def goReplaceAllAux (old new : Str) : Nat → Str → Str
  | 0, s => s
  | _ + 1, [] => []
  | fuel + 1, c :: cs =>
    if old.isPrefixOf (c :: cs) then
      new ++ goReplaceAllAux old new fuel ((c :: cs).drop old.length)
    else c :: goReplaceAllAux old new fuel cs

/-- `strings.ReplaceAll(s, old, new)`.  For an empty `old`, Go inserts `new`
at every rune boundary, including both ends. -/
def goReplaceAll (s old new : Str) : Str :=
  if old = [] then new ++ s.foldr (fun c acc => c :: (new ++ acc)) []
  else goReplaceAllAux old new (s.length + 1) s

/-- Numeric value of a hexadecimal digit character, `none` otherwise. -/
def hexVal (c : Char) : Option Nat :=
  if '0' ≤ c ∧ c ≤ '9' then some (c.toNat - 48)
  else if 'A' ≤ c ∧ c ≤ 'F' then some (c.toNat - 55)
  else if 'a' ≤ c ∧ c ≤ 'f' then some (c.toNat - 87)
  else none

namespace url

/-- `net/url.Userinfo`, with the username and password stored in decoded
form, as Go's parser produces them. -/
structure Userinfo where
  username : Str
  password : Option Str
deriving DecidableEq

/-- The fields of `net/url.URL` the method package reads: `Scheme`, `User`,
`Host` and `Path` (the decoded path). -/
structure URL where
  scheme : Str
  user : Option Userinfo
  host : Str
  path : Str
deriving DecidableEq

/-- Percent-decoding as in `net/url`: every `%` must introduce two hex
digits, otherwise parsing fails (Go's invalid-escape error). -/
def unescape : Str → Option Str
  | [] => some []
  | '%' :: h :: lo :: rest =>
    match hexVal h, hexVal lo with
    | some a, some b => (unescape rest).map fun d => Char.ofNat (16 * a + b) :: d
    | _, _ => none
  | ['%'] => none
  | ['%', _] => none
  | c :: rest => (unescape rest).map fun d => c :: d

/-- Model of `net/url.Parse` restricted to the fragment the method package
exercises: `scheme://[userinfo@]host[/path...]` with no query or fragment
part.  The scheme is the text before the first colon; the authority runs to
the first `/`, `?` or `#`; the userinfo is the part of the authority before
its *last* `@`, split at its first colon into username and password, each
percent-decoded; the path is the percent-decoded remainder.  Inputs outside
this fragment (no scheme, opaque URLs, invalid escapes) yield `none`, where
Go would produce an error or an opaque URL; no claim depends on those
inputs.  Go's host validation is not modelled (the hosts in use are plain
DNS names). -/
def parse (s : Str) : Option URL :=
  let scheme := s.takeWhile (fun c => decide (c ≠ ':'))
  if scheme.length = s.length ∨ scheme = [] then none
  else
    match s.drop (scheme.length + 1) with
    | '/' :: '/' :: rest2 =>
      let authority := rest2.takeWhile (fun c => decide (c ≠ '/' ∧ c ≠ '?' ∧ c ≠ '#'))
      let rawPath := rest2.drop authority.length
      match unescape rawPath with
      | none => none
      | some path =>
        if '@' ∈ authority then
          let hostR := (authority.reverse.takeWhile (fun c => decide (c ≠ '@'))).reverse
          let userinfo := authority.take (authority.length - hostR.length - 1)
          let uname := userinfo.takeWhile (fun c => decide (c ≠ ':'))
          if ':' ∈ userinfo then
            match unescape uname, unescape (userinfo.drop (uname.length + 1)) with
            | some un, some pw => some ⟨scheme, some ⟨un, some pw⟩, hostR, path⟩
            | _, _ => none
          else
            match unescape uname with
            | some un => some ⟨scheme, some ⟨un, none⟩, hostR, path⟩
            | none => none
        else some ⟨scheme, none, authority, path⟩
    | _ => none

/-- `(*Userinfo).Username()` through a possibly nil `URL.User`. -/
def URL.usernameStr (u : URL) : Str :=
  match u.user with
  | none => []
  | some ui => ui.username

/-- `(*Userinfo).Password()` through a possibly nil `URL.User`: the
password and whether one was set. -/
def URL.passwordStr (u : URL) : Str × Bool :=
  match u.user with
  | none => ([], false)
  | some ui =>
    match ui.password with
    | none => ([], false)
    | some p => (p, true)

end url

namespace method

/-- The error values of `newLocation`: `errLocMissingRequiredTokens`, a
`url.Parse` failure, `slicePanic`, which models the Go runtime panic that
`uri.Path[1:]` raises when the path is empty, and `prePanic`, which models
the Go runtime panic that `sub[5:]` in `preProcessURL` raises when the
first `@` of the URL sits before index 5. -/
inductive LocErr
  | missingTokens
  | parseError
  | slicePanic
  | prePanic
deriving DecidableEq

/-- `method.objectLocation`: the parsed URI plus the resolved bucket and
object key. -/
structure objectLocation where
  uri : url.URL
  bucket : Str
  key : Str
deriving DecidableEq

/-- `method.preProcessURL`: if the URL contains `@`, take the text before
the first `@`; when that text is shorter than five characters the Go slice
expression `sub[5:]` is out of range and the program panics (`none`);
otherwise drop the five scheme characters `s3://` and split the rest on
colons; when that yields exactly two tokens they are the access key and
secret, and every occurrence of each inside the whole URL has its forward
slashes replaced by `%2F` (with any other token count both are the empty
string and the replacements do nothing). -/
def preProcessURL (u : Str) : Option Str :=
  if '@' ∈ u then
    if (u.takeWhile (fun c => decide (c ≠ '@'))).length < 5 then none
    else
      let sub := (u.takeWhile (fun c => decide (c ≠ '@'))).drop 5
      let ks : Str × Str :=
        match goSplit ':' sub with
        | [k, s] => (k, s)
        | _ => ([], [])
      let processedKey := goReplaceAll ks.1 ['/'] (str "%2F")
      let processedSecret := goReplaceAll ks.2 ['/'] (str "%2F")
      some (goReplaceAll (goReplaceAll u ks.1 processedKey) ks.2 processedSecret)
  else some u

/-- The branching core of `method.newLocation`, applied to the parsed URL:
path-style when the host equals the endpoint hostname (first path token
after the leading empty token is the bucket, the rest re-joined with `/`
the key, fewer than three tokens an error); else virtual-hosted style when
the host merely has the endpoint hostname as a suffix (trim a `.`-prefixed
copy of it to get the bucket); else the host itself is the bucket.  In the
two latter branches Go evaluates `uri.Path[1:]`, which panics on an empty
path (`LocErr.slicePanic`). -/
def newLocationFromURL (uri : url.URL) (s3Hostname : Str) : Except LocErr objectLocation :=
  if uri.host = s3Hostname then
    let tokens := goSplit '/' uri.path
    if tokens.length < 3 then .error .missingTokens
    else .ok ⟨uri, tokens.getD 1 [], goJoin '/' (tokens.drop 2)⟩
  else if goHasSuffix uri.host s3Hostname then
    match uri.path with
    | [] => .error .slicePanic
    | _ :: rest => .ok ⟨uri, goTrimSuffix uri.host ('.' :: s3Hostname), rest⟩
  else
    match uri.path with
    | [] => .error .slicePanic
    | _ :: rest => .ok ⟨uri, uri.host, rest⟩

/-- `method.newLocation`: pre-process the raw URL (propagating the
`sub[5:]` panic), parse it, and resolve bucket and key. -/
def newLocation (value s3Hostname : Str) : Except LocErr objectLocation :=
  match preProcessURL value with
  | none => .error .prePanic
  | some pp =>
    match url.parse pp with
    | none => .error .parseError
    | some uri => newLocationFromURL uri s3Hostname

end method

/-- The path segments of a rooted URL path, as the specification speaks of
them: nothing for an empty path, else the `/`-separated pieces after the
leading slash. -/
def pathSegments (p : Str) : List Str :=
  match p with
  | [] => []
  | '/' :: rest => goSplit '/' rest
  | other => goSplit '/' other

namespace method

/-- `fieldValueNotFound`: the fixed not-found text. -/
def fieldValueNotFound : Str := str "The specified key does not exist."

/-- `method.notFound(s3Uri)`: the `400 URI Failure` response.  The code
builds the field list as `[]*message.Field{uriField, messageField}` — the
`URI` field first, then the `Message` field — although the function's own
doc comment (and the specification) show `Message` first.  The `uriStr`
argument stands for `s3Uri.String()`. -/
def notFound (uriStr : Str) : message.Message :=
  ⟨⟨400, str "URI Failure"⟩,
    [⟨str "URI", uriStr⟩, ⟨str "Message", fieldValueNotFound⟩]⟩

/-- `configItemAcquireS3Region`. -/
def configItemAcquireS3Region : Str := str "Acquire::s3::region"

/-- `configItemAcquireS3Role`. -/
def configItemAcquireS3Role : Str := str "Acquire::s3::role"

/-- One `Config-Item` application from `Method.configure`: split the value
on `=`; a recognized key overwrites the region or role with the token after
the first `=`.  `none` models the Go index-out-of-range panic (`config[1]`)
when a recognized key has no `=` in its item. -/
def applyConfigItem (acc : Str × Str) (v : Str) : Option (Str × Str) :=
  let config := goSplit '=' v
  if config.headI = configItemAcquireS3Region then
    match config.get? 1 with
    | some r => some (r, acc.2)
    | none => none
  else if config.headI = configItemAcquireS3Role then
    match config.get? 1 with
    | some r => some (acc.1, r)
    | none => none
  else some acc

/-- The region/role pair produced by `Method.configure` on a configuration
message, folding its `Config-Item` fields in order over the current pair. -/
def configResult (m : message.Message) (region roleARN : Str) : Option (Str × Str) :=
  ((message.getFieldList m (str "Config-Item")).map message.Field.value).foldlM
    applyConfigItem (region, roleARN)

/-- The program counter of one dispatched message handler: a freshly framed
raw message inside `handleBytes`, an acquire handler blocked in
`waitForConfiguration`, or an acquire handler past the gate with its
resolved location, about to call the backend. -/
inductive HTask
  | raw (b : Str)
  | acquireWait (m : message.Message)
  | acquireReady (m : message.Message) (loc : objectLocation)
deriving DecidableEq

/-- The `Method` struct's mutable state plus the run-level bookkeeping:
`configured`, `region`, `roleARN` as in the Go struct; `wg` the value of the
`sync.WaitGroup` counter; `framingOpen` whether `readInput` is still
running (it holds the initial `wg` unit); `input` the raw messages the
reader has yet to frame; `tasks` the in-flight handler goroutines; `dead`
whether `os.Exit(1)` has run; `exited` whether `Run` has returned. -/
structure EngineState where
  configured : Bool
  region : Str
  roleARN : Str
  wg : Nat
  framingOpen : Bool
  input : List Str
  tasks : List HTask
  dead : Bool
  exited : Bool
deriving DecidableEq

/-- `method.New()` followed by `Run`'s launch: `wg.Add(1)` for the reader,
default region `us-east-1`, not configured, nothing framed yet. -/
def initState (input : List Str) : EngineState :=
  ⟨false, str "us-east-1", [], 1, true, input, [], false, false⟩

/-- Outcome of the backend `HeadObject` probe and the subsequent download,
collapsed: `notFound` (404), `success` (probe and download both succeed),
`failure` (any other error; `handleError` exits the process). -/
inductive ProbeOutcome
  | notFound
  | success
  | failure
deriving DecidableEq

/-- Observable events of the engine. -/
inductive Ev
  | frame (b : Str)
  | eofInput
  | routeAcquire (m : message.Message)
  | cfgApplied (m : message.Message) (region roleARN : Str)
  | ignored (status : Int)
  | fatal
  | backendResolve (m : message.Message) (loc : objectLocation)
  | backendProbe (bucket key : Str) (oc : ProbeOutcome)
  | runExit
deriving DecidableEq

/-- Backend operations: endpoint resolution / location resolution
(`backendResolve`, the first thing `uriAcquire` does after
`waitForConfiguration` returns) and the object probe/transfer
(`backendProbe`). -/
def isBackend : Ev → Bool
  | .backendResolve _ _ => true
  | .backendProbe _ _ _ => true
  | _ => false

/-- The event of a configuration message being fully applied: region and
role stored and `configured` set true. -/
def isCfgApplied : Ev → Bool
  | .cfgApplied _ _ _ => true
  | _ => false

/-- A silently-ignored message (status outside 600/601) finishing its
handler. -/
def isIgnoredEv : Ev → Bool
  | .ignored _ => true
  | _ => false

/-- Small-step semantics of the engine, parameterized by the external
endpoint resolver `ep` (`s3EndpointURL(region).Hostname()`).  Each step is
one atomic piece of `readInput`, `handleBytes`, `configure`, `uriAcquire`
or `Run`:

* `frame`: `readInput` frames one complete message — sends it to the
  dispatcher (which spawns a handler) and increments the wait group;
* `eofInput`: `readInput` hits end of input and releases its unit;
* `routeAcquire`: `handleBytes` parses a 600 message; the handler enters
  `waitForConfiguration`;
* `cfgApplied`: `handleBytes` parses a 601 message and `configure` applies
  it: region/role stored, `configured` set, `wg.Done()`;
* `ignored`: `handleBytes` parses a message with any other status and
  returns — without touching the wait group;
* `parseFatal` / `cfgPanic` / `acquireFatal` / `probeFatal`: a parse error,
  a malformed recognized `Config-Item`, a failed field lookup / endpoint /
  location resolution, or a backend error — `handleError` (or the runtime
  panic) kills the process, again without touching the wait group;
* `backendResolve`: an acquire handler passes the gate — enabled only when
  `configured` is true — and resolves endpoint and location;
* `backendProbe` with `notFound` / `success`: the probe 404s (emit
  `notFound`, `wg.Done()`) or probe and download succeed (emit URI Done,
  `wg.Done()`);
* `runExit`: `Run`'s `wg.Wait()` returns, enabled only at counter zero. -/
inductive Step (ep : Str → Option Str) : EngineState → Ev → EngineState → Prop
  | frame {s : EngineState} {b : Str} {rest : List Str} :
      s.dead = false → s.exited = false → s.framingOpen = true → s.input = b :: rest →
      Step ep s (.frame b)
        { s with input := rest, wg := s.wg + 1, tasks := s.tasks ++ [.raw b] }
  | eofInput {s : EngineState} :
      s.dead = false → s.exited = false → s.framingOpen = true → s.input = [] →
      Step ep s .eofInput { s with framingOpen := false, wg := s.wg - 1 }
  | routeAcquire {s : EngineState} {t₁ t₂ : List HTask} {b : Str} {m : message.Message} :
      s.dead = false → s.exited = false → s.tasks = t₁ ++ .raw b :: t₂ →
      message.parse b = .ok m → m.header.status = 600 →
      Step ep s (.routeAcquire m) { s with tasks := t₁ ++ .acquireWait m :: t₂ }
  | cfgApplied {s : EngineState} {t₁ t₂ : List HTask} {b : Str} {m : message.Message}
      {r a : Str} :
      s.dead = false → s.exited = false → s.tasks = t₁ ++ .raw b :: t₂ →
      message.parse b = .ok m → m.header.status = 601 →
      configResult m s.region s.roleARN = some (r, a) →
      Step ep s (.cfgApplied m r a)
        { s with tasks := t₁ ++ t₂, region := r, roleARN := a,
                 configured := true, wg := s.wg - 1 }
  | ignored {s : EngineState} {t₁ t₂ : List HTask} {b : Str} {m : message.Message} :
      s.dead = false → s.exited = false → s.tasks = t₁ ++ .raw b :: t₂ →
      message.parse b = .ok m → m.header.status ≠ 600 → m.header.status ≠ 601 →
      Step ep s (.ignored m.header.status) { s with tasks := t₁ ++ t₂ }
  | parseFatal {s : EngineState} {t₁ t₂ : List HTask} {b : Str} {e : message.ParseErr} :
      s.dead = false → s.exited = false → s.tasks = t₁ ++ .raw b :: t₂ →
      message.parse b = .error e →
      Step ep s .fatal { s with dead := true }
  | cfgPanic {s : EngineState} {t₁ t₂ : List HTask} {b : Str} {m : message.Message} :
      s.dead = false → s.exited = false → s.tasks = t₁ ++ .raw b :: t₂ →
      message.parse b = .ok m → m.header.status = 601 →
      configResult m s.region s.roleARN = none →
      Step ep s .fatal { s with dead := true }
  | backendResolve {s : EngineState} {t₁ t₂ : List HTask} {m : message.Message}
      {uri host : Str} {loc : objectLocation} :
      s.dead = false → s.exited = false → s.tasks = t₁ ++ .acquireWait m :: t₂ →
      s.configured = true →
      message.getFieldValue m (str "URI") = (uri, true) →
      ep s.region = some host →
      newLocation uri host = .ok loc →
      Step ep s (.backendResolve m loc)
        { s with tasks := t₁ ++ .acquireReady m loc :: t₂ }
  | acquireFatal {s : EngineState} {t₁ t₂ : List HTask} {m : message.Message} :
      s.dead = false → s.exited = false → s.tasks = t₁ ++ .acquireWait m :: t₂ →
      s.configured = true →
      ((message.getFieldValue m (str "URI")).2 = false ∨ ep s.region = none ∨
        (∃ uri host e, message.getFieldValue m (str "URI") = (uri, true) ∧
          ep s.region = some host ∧ newLocation uri host = .error e)) →
      Step ep s .fatal { s with dead := true }
  | probeNotFound {s : EngineState} {t₁ t₂ : List HTask} {m : message.Message}
      {loc : objectLocation} :
      s.dead = false → s.exited = false → s.tasks = t₁ ++ .acquireReady m loc :: t₂ →
      Step ep s (.backendProbe loc.bucket loc.key .notFound)
        { s with tasks := t₁ ++ t₂, wg := s.wg - 1 }
  | probeSuccess {s : EngineState} {t₁ t₂ : List HTask} {m : message.Message}
      {loc : objectLocation} :
      s.dead = false → s.exited = false → s.tasks = t₁ ++ .acquireReady m loc :: t₂ →
      Step ep s (.backendProbe loc.bucket loc.key .success)
        { s with tasks := t₁ ++ t₂, wg := s.wg - 1 }
  | probeFatal {s : EngineState} {t₁ t₂ : List HTask} {m : message.Message}
      {loc : objectLocation} :
      s.dead = false → s.exited = false → s.tasks = t₁ ++ .acquireReady m loc :: t₂ →
      Step ep s (.backendProbe loc.bucket loc.key .failure) { s with dead := true }
  | runExit {s : EngineState} :
      s.dead = false → s.exited = false → s.wg = 0 →
      Step ep s .runExit { s with exited := true }

/-- Executions: sequences of engine steps with their event trace. -/
inductive Exec (ep : Str → Option Str) : EngineState → List Ev → EngineState → Prop
  | nil (s : EngineState) : Exec ep s [] s
  | cons {s s₁ s₂ : EngineState} {e : Ev} {evs : List Ev} :
      Step ep s e s₁ → Exec ep s₁ evs s₂ → Exec ep s (e :: evs) s₂

end method

/-- The wait-group bookkeeping invariant of the engine: the counter bounds
the number of units still owed — one per in-flight handler task and one for
the reader while framing is open — and once `Run` has returned the counter
is zero, framing has finished and no handler is in flight. -/
def method.wgInv (s : method.EngineState) : Prop :=
  (if s.framingOpen = true then 1 else 0) + s.tasks.length ≤ s.wg ∧
  (s.exited = true → s.wg = 0 ∧ s.framingOpen = false ∧ s.tasks = [])

/-- Endpoint oracle for concrete executions: every region resolves to the
standard endpoint hostname. -/
def c3ep : Str → Option Str := fun _ => some (str "s3.amazonaws.com")

/-- A raw configuration (601) message. -/
def c3cfgRaw : Str := str "601 Configuration\nConfig-Item: Acquire::s3::region=us-west-2"

/-- A raw acquire (600) message. -/
def c3acqRaw : Str := str "600 URI Acquire\nURI: s3://my-bucket/path/file.deb"

/-- The configuration message as parsed. -/
def c3cfgMsg : message.Message :=
  ⟨⟨601, str "Configuration"⟩, [⟨str "Config-Item", str "Acquire::s3::region=us-west-2"⟩]⟩

/-- The acquire message as parsed. -/
def c3acqMsg : message.Message :=
  ⟨⟨600, str "URI Acquire"⟩, [⟨str "URI", str "s3://my-bucket/path/file.deb"⟩]⟩

/-- The location the acquire message resolves to. -/
def c3loc : method.objectLocation :=
  ⟨⟨str "s3", none, str "my-bucket", str "/path/file.deb"⟩,
    str "my-bucket", str "path/file.deb"⟩

/-- Initial engine state with the two raw messages pending. -/
def c3s0 : method.EngineState := method.initState [c3cfgRaw, c3acqRaw]

/-- After framing the configuration message. -/
def c3s1 : method.EngineState :=
  ⟨false, str "us-east-1", [], 2, true, [c3acqRaw], [.raw c3cfgRaw], false, false⟩

/-- After framing the acquire message. -/
def c3s2 : method.EngineState :=
  ⟨false, str "us-east-1", [], 3, true, [], [.raw c3cfgRaw, .raw c3acqRaw], false, false⟩

/-- After the configuration has been applied. -/
def c3s3 : method.EngineState :=
  ⟨true, str "us-west-2", [], 2, true, [], [.raw c3acqRaw], false, false⟩

/-- After the acquire message has been routed to its handler. -/
def c3s4 : method.EngineState :=
  ⟨true, str "us-west-2", [], 2, true, [], [.acquireWait c3acqMsg], false, false⟩

/-- After the acquire handler has resolved endpoint and location. -/
def c3s5 : method.EngineState :=
  ⟨true, str "us-west-2", [], 2, true, [], [.acquireReady c3acqMsg c3loc], false, false⟩

/-- Endpoint oracle for the C2 executions (never consulted by them). -/
def c2ep : Str → Option Str := fun _ => none

/-- A raw message with status 102, outside the supported set. -/
def c2raw : Str := str "102 Status\nMessage: hi"

/-- The 102 message as parsed. -/
def c2msg : message.Message := ⟨⟨102, str "Status"⟩, [⟨str "Message", str "hi"⟩]⟩

/-- A state with one framed 102 message in flight and a counter of 2 (one
unit held by the reader, one by the 102 handler). -/
def c2s : method.EngineState :=
  ⟨false, str "us-east-1", [], 2, true, [], [.raw c2raw], false, false⟩

/-- The state after the 102 handler returns: the task is gone but the
counter still holds its unit. -/
def c2s' : method.EngineState :=
  ⟨false, str "us-east-1", [], 2, true, [], [], false, false⟩

/-- Initial engine state on empty input. -/
def c2x0 : method.EngineState := method.initState []

/-- After the reader hits end of input. -/
def c2x1 : method.EngineState :=
  ⟨false, str "us-east-1", [], 0, false, [], [], false, false⟩

/-- After `Run` returns. -/
def c2x2 : method.EngineState :=
  ⟨false, str "us-east-1", [], 0, false, [], [], false, true⟩

/-- C10: if the current parser (`src/unnamed/part_002`) succeeds on an input,
the older parser (`src/message/message.go`) succeeds on the same input and
produces the identical message (same status, description and field
sequence). -/
theorem c10_parse_refines_parseLegacy (v : Str) (m : message.Message)
    (h : message.parse v = .ok m) : message.parseLegacy v = .ok m := by
  by_cases hlen : (goSplit '\n' (goTrimSpace v)).length < 2
  · simp [message.parse, hlen] at h
  · simpa [message.parse, hlen, message.parseLegacy] using h

/-- Witness for C10 at the concrete message `"600 URI Acquire\nFilename: x"`. -/
theorem c10_parse_refines_parseLegacy_witness :
    message.parseLegacy (str "600 URI Acquire\nFilename: x") =
      .ok ⟨⟨600, str "URI Acquire"⟩, [⟨str "Filename", str "x"⟩]⟩ :=
  c10_parse_refines_parseLegacy (str "600 URI Acquire\nFilename: x")
    ⟨⟨600, str "URI Acquire"⟩, [⟨str "Filename", str "x"⟩]⟩ (by decide)

/-- C9, counterexample: the claim asserts that parsing succeeds on a header
line with an integer first token followed by *zero* or more field lines, but
on the bare header line `"600 URI Acquire"` (zero field lines) the parser
fails with the missing-lines error because the trimmed text has fewer than
two lines. -/
theorem c9_counterexample :
    message.parse (str "600 URI Acquire") = .error .missingLines := by decide

/-- C1, counterexample: the claim asserts the round trip for every message
built from a header and a field list, but a message with an *empty* field
list serializes to the single line `"700 Fake\n"`, which the parser rejects
with the missing-lines error instead of reproducing the message. -/
theorem c1_counterexample :
    message.parse (message.Message.string ⟨⟨700, str "Fake"⟩, []⟩ ++ ['\n']) =
      .error .missingLines := by decide

theorem cons_headI_tail {L : List Str} (h : L ≠ []) : L.headI :: L.tail = L := by
  cases L with
  | nil => exact absurd rfl h
  | cons p ps => rfl

theorem goSplit_ne_nil (sep : Char) (l : Str) : goSplit sep l ≠ [] := by
  cases l with
  | nil => simp [goSplit]
  | cons c cs => by_cases h : c = sep <;> simp [goSplit, h]

theorem goSplit_cons_sep (sep : Char) (l : Str) :
    goSplit sep (sep :: l) = [] :: goSplit sep l := by
  simp [goSplit]

theorem goSplit_cons_ne {sep c : Char} (l : Str) (h : c ≠ sep) :
    goSplit sep (c :: l) = (c :: (goSplit sep l).headI) :: (goSplit sep l).tail := by
  simp [goSplit, h]

theorem goSplit_not_mem {sep : Char} {l : Str} (h : sep ∉ l) : goSplit sep l = [l] := by
  induction l with
  | nil => rfl
  | cons c cs ih =>
    have hc : c ≠ sep := fun hcs => h (hcs ▸ List.mem_cons_self c cs)
    have hcs : sep ∉ cs := fun hm => h (List.mem_cons_of_mem c hm)
    rw [goSplit_cons_ne cs hc, ih hcs]
    rfl

theorem goSplit_append {sep : Char} {a : Str} (b : Str) (h : sep ∉ a) :
    goSplit sep (a ++ sep :: b) = a :: goSplit sep b := by
  induction a with
  | nil => simpa using goSplit_cons_sep sep b
  | cons c cs ih =>
    have hc : c ≠ sep := fun hcs => h (hcs ▸ List.mem_cons_self c cs)
    have hcs : sep ∉ cs := fun hm => h (List.mem_cons_of_mem c hm)
    rw [List.cons_append, goSplit_cons_ne _ hc, ih hcs]
    rfl

theorem goJoin_cons_of_ne_nil {sep : Char} {p : Str} {ps : List Str} (h : ps ≠ []) :
    goJoin sep (p :: ps) = p ++ sep :: goJoin sep ps := by
  cases ps with
  | nil => exact absurd rfl h
  | cons q qs => rfl

theorem goJoin_goSplit (sep : Char) (l : Str) : goJoin sep (goSplit sep l) = l := by
  induction l with
  | nil => rfl
  | cons c cs ih =>
    by_cases h : c = sep
    · subst h
      rw [goSplit_cons_sep, goJoin_cons_of_ne_nil (goSplit_ne_nil _ _)]
      simpa using ih
    · rw [goSplit_cons_ne cs h]
      rcases hsp : goSplit sep cs with _ | ⟨p, ps⟩
      · exact absurd hsp (goSplit_ne_nil _ _)
      · cases ps with
        | nil => simpa [goJoin, hsp] using congrArg (c :: ·) (by simpa [hsp, goJoin] using ih)
        | cons q qs =>
          have : goJoin sep ((c :: p) :: q :: qs) = c :: goJoin sep (p :: q :: qs) := by
            simp [goJoin]
          simp only [List.headI, List.tail]
          rw [this]
          simpa [hsp] using congrArg (c :: ·) (by simpa [hsp] using ih)

theorem mem_of_mem_goSplit {sep c : Char} {p l : Str}
    (hp : p ∈ goSplit sep l) (hc : c ∈ p) : c ∈ l := by
  induction l generalizing p with
  | nil =>
    simp [goSplit] at hp
    subst hp
    simp at hc
  | cons d ds ih =>
    by_cases h : d = sep
    · subst h
      rw [goSplit_cons_sep] at hp
      rcases List.mem_cons.mp hp with hp | hp
      · subst hp; simp at hc
      · exact List.mem_cons_of_mem _ (ih hp hc)
    · rw [goSplit_cons_ne ds h] at hp
      rcases List.mem_cons.mp hp with hp | hp
      · subst hp
        rcases List.mem_cons.mp hc with hc | hc
        · simp [hc]
        · have : (goSplit sep ds).headI ∈ goSplit sep ds := by
            rcases hs : goSplit sep ds with _ | ⟨q, qs⟩
            · exact absurd hs (goSplit_ne_nil _ _)
            · simp
          exact List.mem_cons_of_mem _ (ih this hc)
      · have : p ∈ goSplit sep ds := by
          rcases hs : goSplit sep ds with _ | ⟨q, qs⟩
          · exact absurd hs (goSplit_ne_nil _ _)
          · rw [hs] at hp; exact List.mem_cons_of_mem _ (by simpa using hp)
        exact List.mem_cons_of_mem _ (ih this hc)

theorem not_mem_of_mem_goSplit {sep : Char} {p l : Str}
    (hp : p ∈ goSplit sep l) : sep ∉ p := by
  induction l generalizing p with
  | nil =>
    simp [goSplit] at hp
    subst hp
    simp
  | cons d ds ih =>
    by_cases h : d = sep
    · subst h
      rw [goSplit_cons_sep] at hp
      rcases List.mem_cons.mp hp with hp | hp
      · subst hp; simp
      · exact ih hp
    · rw [goSplit_cons_ne ds h] at hp
      have hhead : (goSplit sep ds).headI ∈ goSplit sep ds := by
        rcases hs : goSplit sep ds with _ | ⟨q, qs⟩
        · exact absurd hs (goSplit_ne_nil _ _)
        · simp
      rcases List.mem_cons.mp hp with hp | hp
      · subst hp
        intro hmem
        rcases List.mem_cons.mp hmem with hmem | hmem
        · exact h hmem.symm
        · exact ih hhead hmem
      · have : p ∈ goSplit sep ds := by
          rcases hs : goSplit sep ds with _ | ⟨q, qs⟩
          · exact absurd hs (goSplit_ne_nil _ _)
          · rw [hs] at hp; exact List.mem_cons_of_mem _ (by simpa using hp)
        exact ih this

theorem goSplit_length (sep : Char) (l : Str) :
    (goSplit sep l).length = l.count sep + 1 := by
  induction l with
  | nil => simp [goSplit]
  | cons c cs ih =>
    by_cases h : c = sep
    · subst h
      rw [goSplit_cons_sep]
      simp [ih, List.count_cons]
    · rw [goSplit_cons_ne cs h]
      have := goSplit_ne_nil sep cs
      have hlen : (goSplit sep cs).tail.length + 1 = (goSplit sep cs).length := by
        rcases hs : goSplit sep cs with _ | ⟨q, qs⟩
        · exact absurd hs this
        · simp
      simp only [List.length_cons, hlen, ih]
      simp [List.count_cons, h]

/-- The characters of a string up to (excluding) the first occurrence of
`sep`. -/
def untilChar (sep : Char) (l : Str) : Str := l.takeWhile (fun c => decide (c ≠ sep))

theorem goSplit_headI (sep : Char) (l : Str) :
    (goSplit sep l).headI = untilChar sep l := by
  induction l with
  | nil => rfl
  | cons c cs ih =>
    by_cases h : c = sep
    · subst h
      rw [goSplit_cons_sep]
      simp [untilChar]
    · rw [goSplit_cons_ne cs h]
      simp [untilChar, h, List.takeWhile_cons]
      simpa [untilChar] using ih

theorem count_goJoin {sep : Char} {ps : List Str} (h : ∀ p ∈ ps, sep ∉ p) :
    (goJoin sep ps).count sep = ps.length - 1 := by
  induction ps with
  | nil => simp [goJoin]
  | cons p ps ih =>
    cases ps with
    | nil =>
      have : sep ∉ p := h p (by simp)
      simp [goJoin, List.count_eq_zero.mpr this]
    | cons q qs =>
      rw [goJoin_cons_of_ne_nil (by simp)]
      have hp : sep ∉ p := h p (by simp)
      have hrest : ∀ r ∈ q :: qs, sep ∉ r := fun r hr => h r (List.mem_cons_of_mem _ hr)
      rw [List.count_append, List.count_eq_zero.mpr hp, List.count_cons]
      simp [ih hrest]

theorem mem_trimLeftWS {c : Char} {l : Str} (h : c ∈ trimLeftWS l) : c ∈ l :=
  (List.dropWhile_sublist _).mem h

theorem mem_trimRightWS {c : Char} {l : Str} (h : c ∈ trimRightWS l) : c ∈ l := by
  have := (List.dropWhile_sublist (l := l.reverse) (p := isSpace)).mem (by simpa [trimRightWS] using h)
  simpa using this

theorem mem_goTrimSpace {c : Char} {l : Str} (h : c ∈ goTrimSpace l) : c ∈ l :=
  mem_trimLeftWS (mem_trimRightWS h)

theorem dropWhile_append_all {p : Char → Bool} {x : Str} (y : Str)
    (h : ∀ c ∈ x, p c = true) : (x ++ y).dropWhile p = y.dropWhile p := by
  induction x with
  | nil => rfl
  | cons c cs ih =>
    have hc := h c (by simp)
    simp [List.dropWhile_cons, hc, ih (fun d hd => h d (by simp [hd]))]

theorem dropWhile_append_ne_nil {p : Char → Bool} {x : Str} (y : Str)
    (h : x.dropWhile p ≠ []) : (x ++ y).dropWhile p = x.dropWhile p ++ y := by
  induction x with
  | nil => simp [List.dropWhile] at h
  | cons c cs ih =>
    by_cases hc : p c
    · rw [List.dropWhile_cons, if_pos hc] at h
      simp [List.dropWhile_cons, hc, ih h]
    · simp [List.dropWhile_cons, hc]

theorem dropWhile_idem {p : Char → Bool} (l : Str) :
    (l.dropWhile p).dropWhile p = l.dropWhile p := by
  induction l with
  | nil => rfl
  | cons c cs ih => by_cases hc : p c <;> simp [List.dropWhile_cons, hc, ih]

theorem trimRightWS_append_all {b : Str} (a : Str) (h : ∀ c ∈ b, isSpace c = true) :
    trimRightWS (a ++ b) = trimRightWS a := by
  unfold trimRightWS
  rw [List.reverse_append, dropWhile_append_all _ (fun c hc => h c (by simpa using hc))]

theorem trimRightWS_eq_nil_iff {l : Str} :
    trimRightWS l = [] ↔ ∀ c ∈ l, isSpace c = true := by
  unfold trimRightWS
  rw [List.reverse_eq_nil_iff, List.dropWhile_eq_nil_iff]
  constructor
  · intro h c hc; exact h c (by simpa using hc)
  · intro h c hc; exact h c (by simpa using hc)

theorem trimRightWS_append_ne {b : Str} (a : Str) (h : trimRightWS b ≠ []) :
    trimRightWS (a ++ b) = a ++ trimRightWS b := by
  have hb : b.reverse.dropWhile isSpace ≠ [] := by
    intro hnil
    exact h (by simp [trimRightWS, hnil])
  unfold trimRightWS
  rw [List.reverse_append, dropWhile_append_ne_nil _ hb, List.reverse_append,
    List.reverse_reverse]

theorem trimLeftWS_eq_nil_iff {l : Str} :
    trimLeftWS l = [] ↔ ∀ c ∈ l, isSpace c = true := List.dropWhile_eq_nil_iff

theorem trimLeftWS_append (x y : Str) :
    trimLeftWS (x ++ y) = if trimLeftWS x = [] then trimLeftWS y else trimLeftWS x ++ y := by
  by_cases hx : trimLeftWS x = []
  · rw [if_pos hx]
    exact dropWhile_append_all y (trimLeftWS_eq_nil_iff.mp hx)
  · rw [if_neg hx]
    exact dropWhile_append_ne_nil y hx

theorem trimLeftWS_cons (c : Char) (l : Str) :
    trimLeftWS (c :: l) = if isSpace c then trimLeftWS l else c :: l := by
  simp [trimLeftWS, List.dropWhile_cons]

theorem trimRightWS_cons (c : Char) (l : Str) :
    trimRightWS (c :: l) =
      if trimRightWS l = [] then (if isSpace c then [] else [c])
      else c :: trimRightWS l := by
  by_cases h : trimRightWS l = []
  · rw [if_pos h, show (c :: l : Str) = [c] ++ l from rfl,
      trimRightWS_append_all [c] (trimRightWS_eq_nil_iff.mp h)]
    by_cases hc : isSpace c <;> simp [trimRightWS, List.dropWhile_cons, hc]
  · rw [if_neg h, show (c :: l : Str) = [c] ++ l from rfl, trimRightWS_append_ne [c] h]
    rfl

theorem trimLeftWS_trimRightWS_comm (l : Str) :
    trimLeftWS (trimRightWS l) = trimRightWS (trimLeftWS l) := by
  induction l with
  | nil => rfl
  | cons c cs ih =>
    by_cases hc : isSpace c
    · rw [trimLeftWS_cons, if_pos hc, trimRightWS_cons]
      by_cases h : trimRightWS cs = []
      · rw [if_pos h, if_pos hc,
          show trimLeftWS cs = [] from
            trimLeftWS_eq_nil_iff.mpr (trimRightWS_eq_nil_iff.mp h)]
        rfl
      · rw [if_neg h, trimLeftWS_cons, if_pos hc, ih]
    · rw [trimLeftWS_cons, if_neg hc, trimRightWS_cons]
      by_cases h : trimRightWS cs = []
      · rw [if_pos h, if_neg hc]
        simp [trimLeftWS, List.dropWhile_cons, hc]
      · rw [if_neg h, trimLeftWS_cons, if_neg hc]

theorem trimRightWS_idem (l : Str) : trimRightWS (trimRightWS l) = trimRightWS l := by
  unfold trimRightWS
  rw [List.reverse_reverse, dropWhile_idem]

theorem trimLeftWS_idem (l : Str) : trimLeftWS (trimLeftWS l) = trimLeftWS l :=
  dropWhile_idem l

theorem goTrimSpace_trimRightWS (l : Str) : goTrimSpace (trimRightWS l) = goTrimSpace l := by
  unfold goTrimSpace
  rw [trimLeftWS_trimRightWS_comm, trimRightWS_idem]

theorem goTrimSpace_trimLeftWS (l : Str) : goTrimSpace (trimLeftWS l) = goTrimSpace l := by
  unfold goTrimSpace
  rw [trimLeftWS_idem]

theorem goTrimSpace_idem (l : Str) : goTrimSpace (goTrimSpace l) = goTrimSpace l := by
  unfold goTrimSpace
  rw [trimLeftWS_trimRightWS_comm, trimLeftWS_idem, trimRightWS_idem]

theorem head?_dropWhile {p : Char → Bool} {l : Str} {c : Char}
    (h : (l.dropWhile p).head? = some c) : p c = false := by
  induction l with
  | nil => simp [List.dropWhile] at h
  | cons d ds ih =>
    by_cases hd : p d
    · rw [List.dropWhile_cons, if_pos hd] at h
      exact ih h
    · rw [List.dropWhile_cons, if_neg hd] at h
      simp at h
      subst h
      simpa using hd

theorem getLast?_trimRightWS {l : Str} {c : Char}
    (h : (trimRightWS l).getLast? = some c) : isSpace c = false := by
  unfold trimRightWS at h
  rw [List.getLast?_reverse] at h
  exact head?_dropWhile h

theorem trimRightWS_decomp (l : Str) :
    ∃ suf, l = trimRightWS l ++ suf ∧ ∀ c ∈ suf, isSpace c = true := by
  refine ⟨(l.reverse.takeWhile isSpace).reverse, ?_, ?_⟩
  · conv_lhs => rw [← List.reverse_reverse l, ← List.takeWhile_append_dropWhile
      (p := isSpace) (l := l.reverse)]
    rw [List.reverse_append]
    rfl
  · intro c hc
    exact List.mem_takeWhile_imp (by simpa using hc)

theorem trimLeftWS_decomp (l : Str) :
    ∃ pre, l = pre ++ trimLeftWS l ∧ ∀ c ∈ pre, isSpace c = true := by
  refine ⟨l.takeWhile isSpace,
    (List.takeWhile_append_dropWhile (p := isSpace) (l := l)).symm, ?_⟩
  intro c hc
  exact List.mem_takeWhile_imp hc

theorem head?_goTrimSpace {l : Str} {c : Char}
    (h : (goTrimSpace l).head? = some c) : isSpace c = false := by
  unfold goTrimSpace at h
  rcases trimRightWS_decomp (trimLeftWS l) with ⟨suf, hdec, _⟩
  apply head?_dropWhile (p := isSpace) (l := l)
  show (trimLeftWS l).head? = some c
  rw [hdec]
  rcases hT : trimRightWS (trimLeftWS l) with _ | ⟨d, ds⟩
  · rw [hT] at h
    simp at h
  · rw [hT] at h
    simpa using h

theorem getLast?_goTrimSpace {l : Str} {c : Char}
    (h : (goTrimSpace l).getLast? = some c) : isSpace c = false :=
  getLast?_trimRightWS h

/-- The ten decimal digit characters. -/
def decimalDigits : Str := str "0123456789"

theorem digitVal_digitChar {n : Nat} (h : n < 10) : digitVal (digitChar n) = some n := by
  interval_cases n <;> decide

theorem digitChar_mem {n : Nat} (h : n < 10) : digitChar n ∈ decimalDigits := by
  interval_cases n <;> decide

theorem mem_natToDigits {fuel n : Nat} (h : n < fuel) :
    ∀ c ∈ natToDigits fuel n, c ∈ decimalDigits := by
  induction fuel generalizing n with
  | zero => omega
  | succ fuel ih =>
    intro c hc
    by_cases h10 : n < 10
    · simp only [natToDigits, if_pos h10] at hc
      simp at hc
      exact hc ▸ digitChar_mem h10
    · have hdiv : n / 10 < fuel := by
        have := Nat.div_lt_self (show 0 < n by omega) (show 1 < 10 by omega)
        omega
      simp only [natToDigits, if_neg h10] at hc
      rcases List.mem_append.mp hc with hc | hc
      · exact ih hdiv c hc
      · simp at hc
        exact hc ▸ digitChar_mem (Nat.mod_lt n (by omega))

theorem natToDigits_ne_nil {fuel n : Nat} (h : n < fuel) : natToDigits fuel n ≠ [] := by
  cases fuel with
  | zero => omega
  | succ fuel =>
    by_cases h10 : n < 10 <;> simp [natToDigits, h10]

/-- The digit-accumulating fold underlying `digitsVal`. -/
def digitsFold (a : Nat) (l : Str) : Option Nat :=
  l.foldl (fun acc c => acc.bind fun x => (digitVal c).map fun d => 10 * x + d) (some a)

theorem digitsFold_natToDigits {fuel n : Nat} (h : n < fuel) (a : Nat) :
    digitsFold a (natToDigits fuel n) =
      some (a * 10 ^ (natToDigits fuel n).length + n) := by
  induction fuel generalizing n a with
  | zero => omega
  | succ fuel ih =>
    by_cases h10 : n < 10
    · simp only [natToDigits, if_pos h10]
      simp [digitsFold, digitVal_digitChar h10]
      ring
    · have hdiv : n / 10 < fuel := by
        have := Nat.div_lt_self (show 0 < n by omega) (show 1 < 10 by omega)
        omega
      simp only [natToDigits, if_neg h10]
      unfold digitsFold
      rw [List.foldl_append]
      have hih := ih hdiv a
      unfold digitsFold at hih
      rw [hih]
      simp [digitVal_digitChar (Nat.mod_lt n (by omega))]
      have harith :
          10 * (a * 10 ^ (natToDigits fuel (n / 10)).length + n / 10) + n % 10 =
            a * 10 ^ ((natToDigits fuel (n / 10)).length + 1) +
              (10 * (n / 10) + n % 10) := by
        rw [pow_succ]
        ring
      rw [harith, Nat.div_add_mod]

theorem digitsVal_natToDigits {fuel n : Nat} (h : n < fuel) :
    digitsVal (natToDigits fuel n) = some n := by
  unfold digitsVal
  rw [if_neg (natToDigits_ne_nil h)]
  have hfold := digitsFold_natToDigits h 0
  unfold digitsFold at hfold
  simpa using hfold

theorem goAtoi_goItoa (i : Int) : goAtoi (goItoa i) = some i := by
  unfold goItoa
  by_cases hneg : i < 0
  · rw [if_pos hneg]
    have hlt : i.natAbs < i.natAbs + 1 := Nat.lt_succ_self _
    rcases hL : natToDigits (i.natAbs + 1) i.natAbs with _ | ⟨c, cs⟩
    · exact absurd hL (natToDigits_ne_nil hlt)
    · rw [← hL]
      have hunf : goAtoi ('-' :: natToDigits (i.natAbs + 1) i.natAbs) =
          (digitsVal (natToDigits (i.natAbs + 1) i.natAbs)).map fun n => -(n : Int) := rfl
      rw [hunf, digitsVal_natToDigits hlt]
      show some (-(i.natAbs : Int)) = some i
      refine congrArg some ?_
      omega
  · rw [if_neg hneg]
    have hlt : i.toNat < i.toNat + 1 := Nat.lt_succ_self _
    rcases hL : natToDigits (i.toNat + 1) i.toNat with _ | ⟨c, cs⟩
    · exact absurd hL (natToDigits_ne_nil hlt)
    · have hcmem : c ∈ decimalDigits := mem_natToDigits hlt c (by rw [hL]; simp)
      have hcmem' : c ∈ ['0', '1', '2', '3', '4', '5', '6', '7', '8', '9'] := by
        simpa [decimalDigits, str] using hcmem
      have hcdash : ¬(c = '-') := by fin_cases hcmem' <;> decide
      have hcplus : ¬(c = '+') := by fin_cases hcmem' <;> decide
      have hv : digitsVal (c :: cs) = some i.toNat := by
        rw [← hL]
        exact digitsVal_natToDigits hlt
      have hunf : goAtoi (c :: cs) =
          if c = '-' then (digitsVal cs).map fun n => -(n : Int)
          else if c = '+' then (digitsVal cs).map fun n => (n : Int)
          else (digitsVal (c :: cs)).map fun n => (n : Int) := rfl
      rw [hunf, if_neg hcdash, if_neg hcplus, hv]
      show some ((i.toNat : Int)) = some i
      refine congrArg some ?_
      omega

theorem mem_goItoa {i : Int} : ∀ c ∈ goItoa i, c ∈ '-' :: decimalDigits := by
  intro c hc
  unfold goItoa at hc
  by_cases hneg : i < 0
  · rw [if_pos hneg] at hc
    rcases List.mem_cons.mp hc with hc | hc
    · simp [hc]
    · exact List.mem_cons_of_mem _ (mem_natToDigits (Nat.lt_succ_self _) c hc)
  · rw [if_neg hneg] at hc
    exact List.mem_cons_of_mem _ (mem_natToDigits (Nat.lt_succ_self _) c hc)

theorem not_space_of_mem_itoaChars {c : Char} (h : c ∈ '-' :: decimalDigits) :
    isSpace c = false ∧ c ≠ '\n' ∧ c ≠ ' ' ∧ c ≠ ':' := by
  have h' : c ∈ ['-', '0', '1', '2', '3', '4', '5', '6', '7', '8', '9'] := by
    simpa [decimalDigits, str] using h
  fin_cases h' <;> refine ⟨by decide, by decide, by decide, by decide⟩

theorem goItoa_ne_nil (i : Int) : goItoa i ≠ [] := by
  unfold goItoa
  by_cases hneg : i < 0
  · simp [if_pos hneg]
  · rw [if_neg hneg]
    exact natToDigits_ne_nil (Nat.lt_succ_self _)

theorem goSplit_append_decomp {sep : Char} {x : Str} {P : List Str} {pl : Str}
    (hx : goSplit sep x = P ++ [pl]) (y : Str) :
    goSplit sep (x ++ y) =
      P ++ (pl ++ (goSplit sep y).headI) :: (goSplit sep y).tail := by
  induction x generalizing P pl with
  | nil =>
    have h1 : ([[]] : List Str) = P ++ [pl] := hx
    have hP : P = [] := by
      cases P with
      | nil => rfl
      | cons q qs =>
        simp at h1
    subst hP
    have hpl : pl = [] := by simpa using h1.symm
    subst hpl
    simpa using (cons_headI_tail (goSplit_ne_nil sep y)).symm
  | cons c cs ih =>
    by_cases hc : c = sep
    · subst hc
      rw [goSplit_cons_sep] at hx
      cases P with
      | nil =>
        simp at hx
        exact absurd hx.2 (goSplit_ne_nil _ _)
      | cons q qs =>
        simp at hx
        rw [List.cons_append, goSplit_cons_sep, ih hx.2]
        simp [hx.1]
    · rw [goSplit_cons_ne cs hc] at hx
      cases P with
      | nil =>
        simp at hx
        have hcs : goSplit sep cs = [] ++ [(goSplit sep cs).headI] := by
          rw [List.nil_append]
          conv_lhs => rw [← cons_headI_tail (goSplit_ne_nil sep cs)]
          rw [hx.2]
        rw [List.cons_append, goSplit_cons_ne _ hc, ih hcs]
        simp [← hx.1]
      | cons p0 P' =>
        simp at hx
        have hcs : goSplit sep cs = (goSplit sep cs).headI :: (P' ++ [pl]) := by
          conv_lhs => rw [← cons_headI_tail (goSplit_ne_nil sep cs)]
          rw [hx.2]
        have hcs' : goSplit sep cs = ((goSplit sep cs).headI :: P') ++ [pl] := by
          simpa using hcs
        rw [List.cons_append, goSplit_cons_ne _ hc, ih hcs']
        simp [← hx.1]

/-- Number of non-empty lines of a raw text. -/
def neLines (v : Str) : Nat :=
  ((goSplit '\n' v).filter (fun l => decide (l ≠ []))).length

theorem neLines_le_append_right (x y : Str) : neLines y ≤ neLines (x ++ y) := by
  rcases List.eq_nil_or_concat' (goSplit '\n' x) with hnil | ⟨P, pl, hx⟩
  · exact absurd hnil (goSplit_ne_nil _ _)
  · unfold neLines
    rw [goSplit_append_decomp hx y, List.filter_append]
    conv_lhs => rw [← cons_headI_tail (goSplit_ne_nil '\n' y)]
    rw [List.length_append]
    have hhead :
        (List.filter (fun l => decide (l ≠ []))
            ((goSplit '\n' y).headI :: (goSplit '\n' y).tail)).length ≤
        (List.filter (fun l => decide (l ≠ []))
            ((pl ++ (goSplit '\n' y).headI) :: (goSplit '\n' y).tail)).length := by
      by_cases hy : (goSplit '\n' y).headI = []
      · rw [hy, List.append_nil, List.filter_cons_of_neg (by simp)]
        by_cases hpl : pl = []
        · rw [List.filter_cons_of_neg (by simp [hpl])]
        · rw [List.filter_cons_of_pos (by simp [hpl])]
          simp
      · have hply : pl ++ (goSplit '\n' y).headI ≠ [] := fun hh => hy (by
          rcases List.append_eq_nil.mp hh with ⟨_, h2⟩
          exact h2)
        rw [List.filter_cons_of_pos (by simp [hy]), List.filter_cons_of_pos (by simp [hply])]
        simp
    omega

theorem neLines_le_append_left (x y : Str) : neLines x ≤ neLines (x ++ y) := by
  rcases List.eq_nil_or_concat' (goSplit '\n' x) with hnil | ⟨P, pl, hx⟩
  · exact absurd hnil (goSplit_ne_nil _ _)
  · unfold neLines
    rw [goSplit_append_decomp hx y, hx, List.filter_append, List.filter_append,
      List.length_append, List.length_append]
    have hhead :
        (List.filter (fun l => decide (l ≠ [])) [pl]).length ≤
        (List.filter (fun l => decide (l ≠ []))
            ((pl ++ (goSplit '\n' y).headI) :: (goSplit '\n' y).tail)).length := by
      by_cases hpl : pl = []
      · rw [List.filter_cons_of_neg (by simp [hpl])]
        simp
      · have hply : pl ++ (goSplit '\n' y).headI ≠ [] := fun hh => hpl (by
          rcases List.append_eq_nil.mp hh with ⟨h1, _⟩
          exact h1)
        rw [List.filter_cons_of_pos (by simp [hpl]), List.filter_cons_of_pos (by simp [hply])]
        simp
    omega

theorem goSplit_concat {sep d : Char} {x : Str} {P : List Str} {pl : Str}
    (hx : goSplit sep x = P ++ [pl]) (hd : d ≠ sep) :
    goSplit sep (x ++ [d]) = P ++ [pl ++ [d]] := by
  rw [goSplit_append_decomp hx [d],
    goSplit_not_mem (by simpa using fun h : sep = d => hd h.symm)]
  rfl

theorem two_le_neLines_of_trimmed {v : Str}
    (hlen : 2 ≤ (goSplit '\n' (goTrimSpace v)).length) :
    2 ≤ neLines (goTrimSpace v) := by
  rcases List.eq_nil_or_concat' (goTrimSpace v) with hnil | ⟨t₀, d, hconcat⟩
  · rw [hnil] at hlen
    simp [goSplit] at hlen
  · have hd : isSpace d = false :=
      getLast?_goTrimSpace (by rw [hconcat]; exact List.getLast?_concat _)
    have hdn : d ≠ '\n' := by
      intro h
      rw [h] at hd
      simp [isSpace] at hd
    rcases List.eq_nil_or_concat' (goSplit '\n' t₀) with hnil | ⟨P, pl, ht₀⟩
    · exact absurd hnil (goSplit_ne_nil _ _)
    · have hsplit : goSplit '\n' (goTrimSpace v) = P ++ [pl ++ [d]] := by
        rw [hconcat]
        exact goSplit_concat ht₀ hdn
      rcases P with _ | ⟨p0, P'⟩
      · rw [hsplit] at hlen
        simp at hlen
      · have hp0 : p0 ≠ [] := by
          rcases hcv : goTrimSpace v with _ | ⟨c, t'⟩
          · rw [hcv] at hlen
            simp [goSplit] at hlen
          · have hc : isSpace c = false := head?_goTrimSpace (by rw [hcv]; rfl)
            have hcn : c ≠ '\n' := by
              intro h
              rw [h] at hc
              simp [isSpace] at hc
            have hheadI : (goSplit '\n' (goTrimSpace v)).headI = untilChar '\n' (goTrimSpace v) :=
              goSplit_headI _ _
            rw [hsplit] at hheadI
            rw [hcv] at hheadI
            simp only [List.cons_append, List.headI] at hheadI
            rw [hheadI, untilChar, List.takeWhile_cons, if_pos (by simpa using hcn)]
            simp
        unfold neLines
        rw [hsplit, List.cons_append, List.filter_cons_of_pos (by simpa using hp0),
          List.length_cons, List.filter_append]
        rw [List.filter_cons_of_pos (by simp), List.length_append, List.length_cons]
        omega

theorem two_le_neLines {v : Str} (hlen : 2 ≤ (goSplit '\n' (goTrimSpace v)).length) :
    2 ≤ neLines v := by
  have h1 : 2 ≤ neLines (goTrimSpace v) := two_le_neLines_of_trimmed hlen
  rcases trimRightWS_decomp (trimLeftWS v) with ⟨suf, hdec, _⟩
  rcases trimLeftWS_decomp v with ⟨pre, hdec2, _⟩
  have h2 : neLines (goTrimSpace v) ≤ neLines (trimLeftWS v) := by
    rw [hdec]
    exact neLines_le_append_left _ _
  have h3 : neLines (trimLeftWS v) ≤ neLines v := by
    conv_rhs => rw [hdec2]
    exact neLines_le_append_right _ _
  omega

theorem goSplit_goJoin_lines {sep : Char} {ls : List Str} (hne : ls ≠ [])
    (h : ∀ l ∈ ls, sep ∉ l) : goSplit sep (goJoin sep ls) = ls := by
  induction ls with
  | nil => exact absurd rfl hne
  | cons x xs ih =>
    cases xs with
    | nil => exact goSplit_not_mem (h x (by simp))
    | cons y ys =>
      rw [goJoin_cons_of_ne_nil (by simp), goSplit_append _ (h x (by simp)),
        ih (by simp) (fun l hl => h l (List.mem_cons_of_mem _ hl))]

theorem goJoin_concat (sep : Char) (P : List Str) (pl : Str) :
    goJoin sep (P ++ [pl]) = if P = [] then pl else goJoin sep P ++ sep :: pl := by
  induction P with
  | nil => rfl
  | cons p ps ih =>
    rw [List.cons_append, goJoin_cons_of_ne_nil (by simp), ih]
    cases ps with
    | nil => simp [goJoin]
    | cons q qs =>
      rw [if_neg (show ¬(q :: qs = []) from by simp),
        if_neg (show ¬(p :: q :: qs = []) from by simp),
        goJoin_cons_of_ne_nil (show (q :: qs : List Str) ≠ [] from by simp)]
      simp

theorem parseHeader_congr {a b : Str} (h : goTrimSpace a = goTrimSpace b) :
    message.parseHeader a = message.parseHeader b := by
  unfold message.parseHeader
  rw [h]

theorem parseField_congr {a b : Str} (h : goTrimSpace a = goTrimSpace b) :
    message.parseField a = message.parseField b := by
  unfold message.parseField
  rw [h]

theorem parse_congr {a b : Str} (h : goTrimSpace a = goTrimSpace b) :
    message.parse a = message.parse b := by
  unfold message.parse
  rw [h]

theorem parseField_trimRightWS (l : Str) :
    message.parseField (trimRightWS l) = message.parseField l :=
  parseField_congr (goTrimSpace_trimRightWS l)

theorem goTrimSpace_comm (l : Str) : goTrimSpace l = trimLeftWS (trimRightWS l) :=
  (trimLeftWS_trimRightWS_comm l).symm

theorem goTrimSpace_append_ws {b : Str} (x : Str) (h : ∀ c ∈ b, isSpace c = true) :
    goTrimSpace (x ++ b) = goTrimSpace x := by
  rw [goTrimSpace_comm, trimRightWS_append_all x h, ← goTrimSpace_comm]

theorem trimLeftWS_length_le (l : Str) : (trimLeftWS l).length ≤ l.length :=
  (List.dropWhile_sublist _).length_le

theorem trimRightWS_length_le (l : Str) : (trimRightWS l).length ≤ l.length := by
  have := (List.dropWhile_sublist (l := l.reverse) (p := isSpace)).length_le
  simpa [trimRightWS] using this

theorem trim_inv_left {l : Str} (h : goTrimSpace l = l) : trimLeftWS l = l := by
  have hlen : l.length ≤ (trimLeftWS l).length := by
    have h1 := trimRightWS_length_le (trimLeftWS l)
    have h2 : (goTrimSpace l).length = l.length := by rw [h]
    unfold goTrimSpace at h2
    omega
  rcases trimLeftWS_decomp l with ⟨pre, hdec, _⟩
  have hlen2 : pre.length = 0 := by
    have := congrArg List.length hdec
    simp at this
    omega
  rw [List.length_eq_zero] at hlen2
  rw [hlen2] at hdec
  simpa using hdec.symm

theorem trim_inv_right {l : Str} (h : goTrimSpace l = l) : trimRightWS l = l := by
  have h2 := h
  unfold goTrimSpace at h2
  rw [trim_inv_left h] at h2
  exact h2

theorem trimRightWS_concat_not_space {c : Char} (x : Str) (h : isSpace c = false) :
    trimRightWS (x ++ [c]) = x ++ [c] := by
  unfold trimRightWS
  rw [List.reverse_append]
  simp only [List.reverse_cons, List.reverse_nil, List.nil_append, List.singleton_append,
    List.dropWhile_cons]
  rw [h]
  simp

theorem trimLeftWS_eq_self_of_head {l : Str}
    (h : ∀ c, l.head? = some c → isSpace c = false) : trimLeftWS l = l := by
  cases l with
  | nil => rfl
  | cons c cs =>
    have := h c rfl
    simp [trimLeftWS, List.dropWhile_cons, this]

theorem trimRightWS_eq_self_of_getLast {l : Str}
    (h : ∀ c, l.getLast? = some c → isSpace c = false) : trimRightWS l = l := by
  rcases List.eq_nil_or_concat' l with hnil | ⟨x, d, hconcat⟩
  · rw [hnil]; rfl
  · subst hconcat
    exact trimRightWS_concat_not_space x (h d (List.getLast?_concat _))

theorem goTrimSpace_eq_self_of_forall {l : Str} (h : ∀ c ∈ l, isSpace c = false) :
    goTrimSpace l = l := by
  unfold goTrimSpace
  rw [trimLeftWS_eq_self_of_head (fun c hc => h c (by
    cases l with
    | nil => simp at hc
    | cons d ds =>
      simp at hc
      simp [hc]))]
  exact trimRightWS_eq_self_of_getLast
    (fun c hc => h c (List.mem_of_mem_getLast? (Option.mem_def.mpr hc)))

theorem trimRightWS_of_segments {value : Str}
    (h : ∀ seg ∈ goSplit ':' value, goTrimSpace seg = seg) : trimRightWS value = value := by
  rcases List.eq_nil_or_concat' (goSplit ':' value) with hnil | ⟨P, pl, hv⟩
  · exact absurd hnil (goSplit_ne_nil _ _)
  · have hpl : trimRightWS pl = pl :=
      trim_inv_right (h pl (by rw [hv]; simp))
    have hval : value = goJoin ':' (P ++ [pl]) := by
      rw [← hv, goJoin_goSplit]
    rw [hval, goJoin_concat]
    by_cases hP : P = []
    · rw [if_pos hP]
      exact hpl
    · rw [if_neg hP]
      cases pl with
      | nil =>
        have : goJoin ':' P ++ ':' :: ([] : Str) = goJoin ':' P ++ [':'] := by simp
        rw [this]
        exact trimRightWS_concat_not_space _ (by decide)
      | cons e es =>
        have hshape : goJoin ':' P ++ ':' :: (e :: es) =
            (goJoin ':' P ++ [':']) ++ (e :: es) := by simp
        rw [hshape, trimRightWS_append_ne _ (by rw [hpl]; simp), hpl]

theorem parseField_string {f : message.Field}
    (hnc : (':' : Char) ∉ f.name)
    (hhead : ∀ c, f.name.head? = some c → isSpace c = false)
    (hsegs : ∀ seg ∈ goSplit ':' f.value, goTrimSpace seg = seg) :
    message.parseField (message.Field.string f) = f := by
  have hL : trimLeftWS (message.Field.string f) = message.Field.string f := by
    apply trimLeftWS_eq_self_of_head
    intro c hc
    unfold message.Field.string at hc
    rcases hn : f.name with _ | ⟨a, as⟩
    · rw [hn] at hc
      simp at hc
      rw [← hc]
      decide
    · rw [hn] at hc
      simp at hc
      exact hc ▸ hhead a (by rw [hn]; rfl)
  rcases hv : f.value with _ | ⟨e, es⟩
  · have hline : message.Field.string f = (f.name ++ [':']) ++ [' '] := by
      unfold message.Field.string
      rw [hv]
      simp
    have hT : goTrimSpace (message.Field.string f) = f.name ++ [':'] := by
      unfold goTrimSpace
      rw [hL, hline, trimRightWS_append_all _ (by intro c hc; simp at hc; rw [hc]; rfl),
        trimRightWS_concat_not_space _ (by decide)]
    unfold message.parseField
    rw [hT, goSplit_append [] hnc]
    rcases f with ⟨n, v⟩
    simp only at hv
    subst hv
    rfl
  · have hTRv : trimRightWS f.value = f.value := trimRightWS_of_segments hsegs
    have hline : message.Field.string f = (f.name ++ [':', ' ']) ++ f.value := by
      unfold message.Field.string
      simp
    have hT : goTrimSpace (message.Field.string f) = message.Field.string f := by
      unfold goTrimSpace
      rw [hL, hline, trimRightWS_append_ne _ (by rw [hTRv, hv]; simp), hTRv, ← hline]
    have hs0 : goSplit ':' f.value =
        (goSplit ':' f.value).headI :: (goSplit ':' f.value).tail :=
      (cons_headI_tail (goSplit_ne_nil _ _)).symm
    have hs0inv : goTrimSpace ((goSplit ':' f.value).headI) = (goSplit ':' f.value).headI :=
      hsegs _ (by rw [hs0]; simp)
    have htrimmed : goTrimSpace (' ' :: (goSplit ':' f.value).headI) =
        (goSplit ':' f.value).headI := by
      show trimRightWS (trimLeftWS (' ' :: (goSplit ':' f.value).headI)) =
        (goSplit ':' f.value).headI
      rw [trimLeftWS_cons, if_pos (by decide)]
      exact hs0inv
    have htail : ((goSplit ':' f.value).tail).map goTrimSpace = (goSplit ':' f.value).tail := by
      have : ∀ t ∈ (goSplit ':' f.value).tail, goTrimSpace t = t := fun t ht =>
        hsegs t ((List.tail_sublist _).subset ht)
      calc ((goSplit ':' f.value).tail).map goTrimSpace
          = ((goSplit ':' f.value).tail).map id := List.map_congr_left this
        _ = (goSplit ':' f.value).tail := List.map_id _
    have hsplitline : goSplit ':' (message.Field.string f) =
        f.name :: (' ' :: (goSplit ':' f.value).headI) :: (goSplit ':' f.value).tail := by
      unfold message.Field.string
      rw [show f.name ++ ':' :: ' ' :: f.value = f.name ++ ':' :: (' ' :: f.value) from rfl,
        goSplit_append _ hnc, goSplit_cons_ne _ (by decide)]
    unfold message.parseField
    rw [hT, hsplitline]
    show (⟨f.name, goJoin ':'
      (((' ' :: (goSplit ':' f.value).headI) :: (goSplit ':' f.value).tail).map goTrimSpace)⟩ :
        message.Field) = f
    rw [List.map_cons, htrimmed, htail, ← hs0, goJoin_goSplit]

theorem goItoa_not_space : ∀ c ∈ goItoa i, isSpace c = false := fun c hc =>
  (not_space_of_mem_itoaChars (mem_goItoa c hc)).1

theorem goItoa_not_mem_space : (' ' : Char) ∉ goItoa i := fun hc =>
  (not_space_of_mem_itoaChars (mem_goItoa _ hc)).2.2.1 rfl

theorem goItoa_trim (i : Int) : goTrimSpace (goItoa i) = goItoa i :=
  goTrimSpace_eq_self_of_forall goItoa_not_space

theorem parseHeader_string {h : message.Header}
    (hd : ∀ c ∈ h.description, c = ' ' ∨ isSpace c = false)
    (hlast : h.description.getLast? ≠ some ' ') :
    message.parseHeader (message.Header.string h) = .ok h := by
  have hL : trimLeftWS (message.Header.string h) = message.Header.string h := by
    apply trimLeftWS_eq_self_of_head
    intro c hc
    unfold message.Header.string at hc
    rcases hI : goItoa h.status with _ | ⟨a, as⟩
    · exact absurd hI (goItoa_ne_nil _)
    · rw [hI] at hc
      simp at hc
      exact hc ▸ goItoa_not_space a (by rw [hI]; simp)
  rcases hd' : h.description with _ | ⟨e, es⟩
  · have hline : message.Header.string h = goItoa h.status ++ [' '] := by
      unfold message.Header.string
      rw [hd']
    have hT : goTrimSpace (message.Header.string h) = goItoa h.status := by
      unfold goTrimSpace
      rw [hL, hline, trimRightWS_append_all _ (by intro c hc; simp at hc; rw [hc]; rfl),
        trimRightWS_eq_self_of_getLast (fun c hc =>
          goItoa_not_space c (List.mem_of_mem_getLast? (Option.mem_def.mpr hc)))]
    unfold message.parseHeader
    rw [hT, goSplit_not_mem goItoa_not_mem_space]
    show (match goAtoi (goTrimSpace ([goItoa h.status] : List Str).headI) with
      | none => (.error .invalidStatus : Except message.ParseErr message.Header)
      | some n =>
        .ok ⟨n, goJoin ' ' ((([goItoa h.status] : List Str).drop 1).map goTrimSpace)⟩) = .ok h
    rw [show ([goItoa h.status] : List Str).headI = goItoa h.status from rfl, goItoa_trim,
      goAtoi_goItoa]
    rcases h with ⟨s, d⟩
    simp only at hd'
    subst hd'
    rfl
  · have hdl : ∀ c, h.description.getLast? = some c → isSpace c = false := by
      intro c hc
      rcases hd c (List.mem_of_mem_getLast? (Option.mem_def.mpr hc)) with hsp | hns
      · exact absurd (hsp ▸ hc) hlast
      · exact hns
    have hT : goTrimSpace (message.Header.string h) = message.Header.string h := by
      unfold goTrimSpace
      rw [hL]
      apply trimRightWS_eq_self_of_getLast
      intro c hc
      apply hdl c
      unfold message.Header.string at hc
      rw [show goItoa h.status ++ ' ' :: h.description =
        (goItoa h.status ++ [' ']) ++ h.description from by simp] at hc
      rwa [List.getLast?_append_of_ne_nil _ (by rw [hd']; simp)] at hc
    have htokens : goSplit ' ' (message.Header.string h) =
        goItoa h.status :: goSplit ' ' h.description := by
      unfold message.Header.string
      exact goSplit_append _ goItoa_not_mem_space
    have hdesc : (goSplit ' ' h.description).map goTrimSpace = goSplit ' ' h.description := by
      have hinv : ∀ t ∈ goSplit ' ' h.description, goTrimSpace t = t := by
        intro t ht
        apply goTrimSpace_eq_self_of_forall
        intro c hc
        rcases hd c (mem_of_mem_goSplit ht hc) with hsp | hns
        · exact absurd (hsp ▸ hc) (not_mem_of_mem_goSplit ht)
        · exact hns
      calc (goSplit ' ' h.description).map goTrimSpace
          = (goSplit ' ' h.description).map id := List.map_congr_left hinv
        _ = goSplit ' ' h.description := List.map_id _
    unfold message.parseHeader
    rw [hT, htokens]
    show (match goAtoi (goTrimSpace
        ((goItoa h.status :: goSplit ' ' h.description) : List Str).headI) with
      | none => (.error .invalidStatus : Except message.ParseErr message.Header)
      | some n =>
        .ok ⟨n, goJoin ' '
          ((((goItoa h.status :: goSplit ' ' h.description) : List Str).drop 1).map
            goTrimSpace)⟩) = .ok h
    rw [show ((goItoa h.status :: goSplit ' ' h.description) : List Str).headI =
      goItoa h.status from rfl, goItoa_trim, goAtoi_goItoa]
    show Except.ok (⟨h.status, goJoin ' '
      ((goSplit ' ' h.description).map goTrimSpace)⟩ : message.Header) = .ok h
    rw [hdesc, goJoin_goSplit]

theorem parse_eq_of_lines {v l0 l1 : Str} {rest : List Str}
    (hlines : goSplit '\n' (goTrimSpace v) = l0 :: l1 :: rest) :
    message.parse v =
      match message.parseHeader l0 with
      | .error e => .error e
      | .ok h => .ok ⟨h, message.parseFields (l1 :: rest)⟩ := by
  simp only [message.parse, hlines]
  rw [if_neg (by simp)]
  rfl

theorem parse_header_block {hl : Str} {fls : List Str} {hd : message.Header}
    (hph : message.parseHeader hl = .ok hd)
    (hne : fls ≠ [])
    (hnl : ('\n' : Char) ∉ hl)
    (hnls : ∀ l ∈ fls, ('\n' : Char) ∉ l)
    (hlast : trimRightWS (fls.getLastD []) ≠ []) :
    message.parse (hl ++ '\n' :: goJoin '\n' fls) =
      .ok ⟨hd, fls.map message.parseField⟩ := by
  have hl'ne : trimLeftWS hl ≠ [] := by
    intro hnil
    have htr : goTrimSpace hl = [] := by
      unfold goTrimSpace
      rw [hnil]
      rfl
    unfold message.parseHeader at hph
    rw [htr] at hph
    exact Except.noConfusion hph
  obtain ⟨fls₀, lk, hfls⟩ : ∃ F lk, fls = F ++ [lk] := by
    rcases List.eq_nil_or_concat' fls with h | ⟨F, lk, h⟩
    · exact absurd h hne
    · exact ⟨F, lk, h⟩
  have hlastlk : trimRightWS lk ≠ [] := by
    rw [hfls, List.getLastD_concat] at hlast
    exact hlast
  have hTL : trimLeftWS (hl ++ '\n' :: goJoin '\n' fls) =
      trimLeftWS hl ++ '\n' :: goJoin '\n' fls := by
    rw [show hl ++ '\n' :: goJoin '\n' fls = hl ++ ('\n' :: goJoin '\n' fls) from rfl,
      trimLeftWS_append, if_neg hl'ne]
  have hT : goTrimSpace (hl ++ '\n' :: goJoin '\n' fls) =
      trimLeftWS hl ++ '\n' :: goJoin '\n' (fls₀ ++ [trimRightWS lk]) := by
    unfold goTrimSpace
    rw [hTL, hfls]
    rcases hF : fls₀ with _ | ⟨g, gs⟩
    · rw [goJoin_concat, if_pos rfl, goJoin_concat, if_pos rfl]
      rw [show trimLeftWS hl ++ '\n' :: lk = (trimLeftWS hl ++ ['\n']) ++ lk from by simp,
        trimRightWS_append_ne _ hlastlk]
      simp
    · rw [goJoin_concat, if_neg (by simp), goJoin_concat, if_neg (by simp)]
      rw [show trimLeftWS hl ++ '\n' :: (goJoin '\n' (g :: gs) ++ '\n' :: lk) =
        ((trimLeftWS hl ++ '\n' :: goJoin '\n' (g :: gs)) ++ ['\n']) ++ lk from by simp,
        trimRightWS_append_ne _ hlastlk]
      simp
  have hlines : goSplit '\n' (goTrimSpace (hl ++ '\n' :: goJoin '\n' fls)) =
      trimLeftWS hl :: (fls₀ ++ [trimRightWS lk]) := by
    rw [hT, goSplit_append _ (fun hmem => hnl (mem_trimLeftWS hmem))]
    congr 1
    apply goSplit_goJoin_lines (by simp)
    intro l hlmem
    rcases List.mem_append.mp hlmem with hlm | hlm
    · exact hnls l (by rw [hfls]; exact List.mem_append_left _ hlm)
    · simp at hlm
      subst hlm
      intro hmem
      exact hnls lk (by rw [hfls]; simp) (mem_trimRightWS hmem)
  rcases hshape : fls₀ ++ [trimRightWS lk] with _ | ⟨l1, rest⟩
  · exact absurd hshape (by simp)
  · have hfields : message.parseFields (l1 :: rest) = fls.map message.parseField := by
      unfold message.parseFields
      rw [← hshape, hfls, List.map_append, List.map_append]
      simp [parseField_trimRightWS]
    rw [parse_eq_of_lines (by rw [hlines, hshape]),
      parseHeader_congr (goTrimSpace_trimLeftWS hl), hph]
    show Except.ok (⟨hd, message.parseFields (l1 :: rest)⟩ : message.Message) =
      .ok ⟨hd, fls.map message.parseField⟩
    rw [hfields]

theorem fieldsBlock_eq {fs : List message.Field} (h : fs ≠ []) :
    fs.foldr (fun f acc => message.Field.string f ++ '\n' :: acc) [] =
      goJoin '\n' (fs.map message.Field.string) ++ ['\n'] := by
  induction fs with
  | nil => exact absurd rfl h
  | cons f fs ih =>
    cases fs with
    | nil => simp [goJoin]
    | cons g gs =>
      rw [List.foldr_cons, ih (by simp),
        show (List.map message.Field.string (f :: g :: gs)) =
          message.Field.string f :: List.map message.Field.string (g :: gs) from rfl,
        goJoin_cons_of_ne_nil
          (show List.map message.Field.string (g :: gs) ≠ [] from by simp)]
      simp

theorem goHasSuffix_append (x suf : Str) : goHasSuffix (x ++ suf) suf = true := by
  unfold goHasSuffix
  have h1 : suf.length ≤ (x ++ suf).length := by simp
  have h2 : (x ++ suf).drop ((x ++ suf).length - suf.length) = suf := by
    rw [List.length_append, Nat.add_sub_cancel]
    exact List.drop_left x suf
  simp [h1, h2]

theorem goHasSuffix_iff {l suf : Str} : goHasSuffix l suf = true ↔ ∃ pre, l = pre ++ suf := by
  constructor
  · intro h
    unfold goHasSuffix at h
    simp only [Bool.and_eq_true, decide_eq_true_eq] at h
    refine ⟨l.take (l.length - suf.length), ?_⟩
    conv_lhs => rw [← List.take_append_drop (l.length - suf.length) l]
    rw [h.2]
  · rintro ⟨pre, rfl⟩
    exact goHasSuffix_append pre suf

theorem goTrimSuffix_append (pre suf : Str) : goTrimSuffix (pre ++ suf) suf = pre := by
  unfold goTrimSuffix
  rw [if_pos (goHasSuffix_append pre suf), List.length_append, Nat.add_sub_cancel]
  exact List.take_left pre suf

theorem goTrimSuffix_of_no_suffix {l suf : Str} (h : ∀ pre, l ≠ pre ++ suf) :
    goTrimSuffix l suf = l := by
  unfold goTrimSuffix
  rw [if_neg]
  intro hss
  rcases goHasSuffix_iff.mp hss with ⟨pre, hpre⟩
  exact h pre hpre

theorem headI_eq_getD (S : List Str) : S.getD 0 [] = S.headI := by
  cases S <;> rfl

theorem foldr_cons_id (s : Str) : s.foldr (fun c acc => c :: acc) [] = s := by
  induction s with
  | nil => rfl
  | cons c cs ih => simp [ih]

theorem goReplaceAll_nil_nil (s : Str) : goReplaceAll s [] [] = s := by
  unfold goReplaceAll
  rw [if_pos rfl]
  simp only [List.nil_append]
  exact foldr_cons_id s

/-- C6, counterexample: the claim asserts the value is everything after the
first colon with only leading/trailing white space trimmed, but on the line
`"A: b : c"` the parser trims every colon-separated segment individually,
producing `"b:c"` where the claim requires `"b : c"`. -/
theorem c6_counterexample :
    message.parseField (str "A: b : c") = ⟨str "A", str "b:c"⟩ ∧
      goTrimSpace (str " b : c") = str "b : c" ∧ str "b:c" ≠ str "b : c" := by decide

/-- C6, amended: field parsing never fails (it is a total function); the
name is the trimmed line's text before its first colon; the value keeps one
colon for every colon after the first (segments are rejoined, not dropped),
though each colon-separated segment is individually trimmed of leading and
trailing white space; `"URI:value"` parses to name `"URI"`, value
`"value"`. -/
theorem c6_amended :
    (∀ line : Str, (message.parseField line).name = untilChar ':' (goTrimSpace line)) ∧
    (∀ line : Str,
      ((message.parseField line).value).count ':' = ((goTrimSpace line).count ':') - 1) ∧
    message.parseField (str "URI:value") = ⟨str "URI", str "value"⟩ := by
  refine ⟨fun line => ?_, fun line => ?_, by decide⟩
  · simp only [message.parseField]
    exact goSplit_headI ':' (goTrimSpace line)
  · simp only [message.parseField]
    have hcolon :
        ∀ p ∈ ((goSplit ':' (goTrimSpace line)).drop 1).map goTrimSpace, ':' ∉ p := by
      intro p hp
      rcases List.mem_map.mp hp with ⟨q, hq, rfl⟩
      have hq' : q ∈ goSplit ':' (goTrimSpace line) := List.drop_subset 1 _ hq
      intro hc
      exact not_mem_of_mem_goSplit hq' (mem_goTrimSpace hc)
    rw [count_goJoin hcolon, List.length_map, List.length_drop, goSplit_length]
    omega

/-- C9, amended: parsing fails with the missing-lines error whenever the raw
text has fewer than two non-empty lines; a header line fails with the
invalid-status error exactly when its first space-delimited token (trimmed)
does not parse as an integer; and parsing succeeds on a header line that
parses, followed by *one* or more field lines (with the physical line
constraints that make the serialized form line-accurate). -/
theorem c9_amended :
    (∀ v : Str, neLines v < 2 → message.parse v = .error .missingLines) ∧
    (∀ line : Str, message.parseHeader line = .error .invalidStatus ↔
      goAtoi (goTrimSpace (untilChar ' ' (goTrimSpace line))) = none) ∧
    (∀ (hl : Str) (fls : List Str) (h : message.Header),
      message.parseHeader hl = .ok h → fls ≠ [] → ('\n' : Char) ∉ hl →
      (∀ l ∈ fls, ('\n' : Char) ∉ l) → trimRightWS (fls.getLastD []) ≠ [] →
      message.parse (hl ++ '\n' :: goJoin '\n' fls) =
        .ok ⟨h, fls.map message.parseField⟩) := by
  refine ⟨fun v hv => ?_, fun line => ?_,
    fun hl fls h h1 h2 h3 h4 h5 => parse_header_block h1 h2 h3 h4 h5⟩
  · have hlen : (goSplit '\n' (goTrimSpace v)).length < 2 := by
      by_contra hge
      push_neg at hge
      exact absurd (two_le_neLines hge) (by omega)
    simp only [message.parse]
    rw [if_pos hlen]
  · unfold message.parseHeader
    rw [← goSplit_headI]
    cases hat : goAtoi (goTrimSpace ((goSplit ' ' (goTrimSpace line)).headI)) with
    | none => simp [hat]
    | some n => simp [hat]

/-- Witness for C9 at a one-non-empty-line text and at the concrete message
`"600 URI Acquire\nFilename: x"`. -/
theorem c9_amended_witness :
    message.parse (str "600") = .error .missingLines ∧
    message.parse (str "600 URI Acquire" ++ '\n' :: goJoin '\n' [str "Filename: x"]) =
      .ok ⟨⟨600, str "URI Acquire"⟩, [⟨str "Filename", str "x"⟩]⟩ :=
  ⟨c9_amended.1 (str "600") (by decide),
    c9_amended.2.2 (str "600 URI Acquire") [str "Filename: x"] ⟨600, str "URI Acquire"⟩
      (by decide) (by decide) (by decide) (by decide) (by decide)⟩

/-- C1, amended: the round trip `parse (serialize m)` reproduces `m` for
every message with at least one field whose description and fields are
line-accurate: the description contains no white space besides ordinary
spaces and does not end in a space; field names contain no colon, no
newline, and do not start with white space; field values contain no newline
and carry no white space at the edges of their colon-separated segments. -/
theorem c1_amended (s : Int) (d : Str) (fs : List message.Field)
    (hfs : fs ≠ [])
    (hd : ∀ c ∈ d, c = ' ' ∨ isSpace c = false)
    (hdlast : d.getLast? ≠ some ' ')
    (hf : ∀ f ∈ fs, (':' : Char) ∉ f.name ∧ ('\n' : Char) ∉ f.name ∧
      (∀ c, f.name.head? = some c → isSpace c = false) ∧ ('\n' : Char) ∉ f.value ∧
      (∀ seg ∈ goSplit ':' f.value, goTrimSpace seg = seg)) :
    message.parse (message.Message.string ⟨⟨s, d⟩, fs⟩ ++ ['\n']) = .ok ⟨⟨s, d⟩, fs⟩ := by
  have hshape : message.Message.string ⟨⟨s, d⟩, fs⟩ ++ ['\n'] =
      (message.Header.string ⟨s, d⟩ ++ '\n' :: goJoin '\n' (fs.map message.Field.string))
        ++ ['\n', '\n'] := by
    unfold message.Message.string
    rw [fieldsBlock_eq hfs]
    simp
  have hph : message.parseHeader (message.Header.string ⟨s, d⟩) = .ok ⟨s, d⟩ :=
    parseHeader_string hd hdlast
  have hnlHL : ('\n' : Char) ∉ message.Header.string ⟨s, d⟩ := by
    intro hmem
    unfold message.Header.string at hmem
    rcases List.mem_append.mp hmem with hm | hm
    · exact (not_space_of_mem_itoaChars (mem_goItoa _ hm)).2.1 rfl
    · rcases List.mem_cons.mp hm with hm | hm
      · exact absurd hm (by decide)
      · rcases hd _ hm with hsp | hns
        · exact absurd hsp (by decide)
        · exact absurd hns (by decide)
  have hnlsL : ∀ l ∈ fs.map message.Field.string, ('\n' : Char) ∉ l := by
    intro l hlm hmem
    rcases List.mem_map.mp hlm with ⟨f, hfmem, rfl⟩
    unfold message.Field.string at hmem
    rcases List.mem_append.mp hmem with hm | hm
    · exact (hf f hfmem).2.1 hm
    · rcases List.mem_cons.mp hm with hm | hm
      · exact absurd hm (by decide)
      · rcases List.mem_cons.mp hm with hm | hm
        · exact absurd hm (by decide)
        · exact (hf f hfmem).2.2.2.1 hm
  have hlastL : trimRightWS ((fs.map message.Field.string).getLastD []) ≠ [] := by
    rcases List.eq_nil_or_concat' fs with hnil | ⟨F, g, hconcat⟩
    · exact absurd hnil hfs
    · rw [hconcat, List.map_append]
      simp only [List.map_cons, List.map_nil, List.getLastD_concat]
      intro hnil
      have hall := trimRightWS_eq_nil_iff.mp hnil
      have hcolon : (':' : Char) ∈ message.Field.string g := by
        unfold message.Field.string
        simp
      have := hall _ hcolon
      exact absurd this (by decide)
  have hmapL : (fs.map message.Field.string).map message.parseField = fs := by
    rw [List.map_map]
    calc fs.map (message.parseField ∘ message.Field.string)
        = fs.map id := List.map_congr_left (fun f hfmem =>
          parseField_string (hf f hfmem).1 (hf f hfmem).2.2.1 (hf f hfmem).2.2.2.2)
      _ = fs := List.map_id _
  rw [hshape, parse_congr (goTrimSpace_append_ws _ (by decide)),
    parse_header_block hph (by simpa using hfs) hnlHL hnlsL hlastL, hmapL]

/-- Witness for C1 at the concrete message with status 700, description
`"Fake Description"` and fields `Foo: bar`, `Baz: qux`. -/
theorem c1_amended_witness :
    message.parse (message.Message.string ⟨⟨700, str "Fake Description"⟩,
        [⟨str "Foo", str "bar"⟩, ⟨str "Baz", str "qux"⟩]⟩ ++ ['\n']) =
      .ok ⟨⟨700, str "Fake Description"⟩, [⟨str "Foo", str "bar"⟩, ⟨str "Baz", str "qux"⟩]⟩ :=
  c1_amended 700 (str "Fake Description") [⟨str "Foo", str "bar"⟩, ⟨str "Baz", str "qux"⟩]
    (by decide) (by decide) (by decide) (by decide)

/-- C4: when the host equals the endpoint hostname, resolution is
path-style: the first path segment is the bucket, the rest (rejoined with
slashes) is the key, and fewer than two segments is the missing-tokens
resolution error; concretely, `s3://key:secret@s3.amazonaws.com/bucket-name/a/b.deb`
against endpoint host `s3.amazonaws.com` resolves to bucket `bucket-name`
and key `a/b.deb` through the complete pre-process/parse/resolve pipeline. -/
theorem c4_location_path_style :
    (∀ (u : url.URL) (ep : Str), u.host = ep → (u.path = [] ∨ ∃ r, u.path = '/' :: r) →
      ((pathSegments u.path).length < 2 →
        method.newLocationFromURL u ep = .error .missingTokens) ∧
      (2 ≤ (pathSegments u.path).length →
        method.newLocationFromURL u ep =
          .ok ⟨u, (pathSegments u.path).headI, goJoin '/' ((pathSegments u.path).drop 1)⟩)) ∧
    method.newLocation (str "s3://key:secret@s3.amazonaws.com/bucket-name/a/b.deb")
        (str "s3.amazonaws.com") =
      .ok ⟨⟨str "s3", some ⟨str "key", some (str "secret")⟩, str "s3.amazonaws.com",
        str "/bucket-name/a/b.deb"⟩, str "bucket-name", str "a/b.deb"⟩ := by
  constructor
  · intro u ep hhost hpath
    rcases u with ⟨sch, user, host, path⟩
    simp only at hhost hpath
    subst hhost
    rcases hpath with hpath | ⟨r, hpath⟩ <;> subst hpath
    · constructor
      · intro _
        unfold method.newLocationFromURL
        rw [if_pos rfl]
        rfl
      · intro h2
        rw [show pathSegments [] = [] from rfl] at h2
        simp at h2
    · have hsegs : pathSegments ('/' :: r) = goSplit '/' r := rfl
      constructor
      · intro hlt
        rw [hsegs] at hlt
        simp only [method.newLocationFromURL, if_true]
        rw [goSplit_cons_sep, if_pos (by simp; omega)]
      · intro hge
        rw [hsegs] at hge
        simp only [method.newLocationFromURL, if_true]
        rw [goSplit_cons_sep, if_neg (by simp; omega)]
        rw [show (([] :: goSplit '/' r : List Str)).getD 1 [] =
          (goSplit '/' r).getD 0 [] from rfl, headI_eq_getD, hsegs]
        rfl
  · decide

/-- Witness for C4 at a path-style URL record with three path segments and
at one with a single segment. -/
theorem c4_location_path_style_witness :
    method.newLocationFromURL
        ⟨str "s3", none, str "s3.amazonaws.com", str "/bucket-name/a/b.deb"⟩
        (str "s3.amazonaws.com") =
      .ok ⟨⟨str "s3", none, str "s3.amazonaws.com", str "/bucket-name/a/b.deb"⟩,
        str "bucket-name", str "a/b.deb"⟩ ∧
    method.newLocationFromURL ⟨str "s3", none, str "s3.amazonaws.com", str "/only-bucket"⟩
        (str "s3.amazonaws.com") = .error .missingTokens := by
  constructor
  · exact (c4_location_path_style.1
      ⟨str "s3", none, str "s3.amazonaws.com", str "/bucket-name/a/b.deb"⟩
      (str "s3.amazonaws.com") rfl
      (Or.inr ⟨str "bucket-name/a/b.deb", by decide⟩)).2 (by decide)
  · exact (c4_location_path_style.1
      ⟨str "s3", none, str "s3.amazonaws.com", str "/only-bucket"⟩
      (str "s3.amazonaws.com") rfl
      (Or.inr ⟨str "only-bucket", by decide⟩)).1 (by decide)

/-- C8, counterexample: the claim says that for a host that is not the
endpoint but ends with `.` plus it, the key is the path with its leading
slash stripped — so for the empty path the key would be empty — but the
code evaluates `uri.Path[1:]`, which panics on the empty path instead of
returning a location. -/
theorem c8_counterexample :
    method.newLocationFromURL ⟨str "s3", none, str "bucket.s3.amazonaws.com", []⟩
        (str "s3.amazonaws.com") = .error .slicePanic ∧
    method.newLocationFromURL ⟨str "s3", none, str "bucket.s3.amazonaws.com", []⟩
        (str "s3.amazonaws.com") ≠
      .ok ⟨⟨str "s3", none, str "bucket.s3.amazonaws.com", []⟩, str "bucket", []⟩ := by
  decide

/-- C8, amended: for a URI with a *non-empty, rooted* path whose host is not
exactly the endpoint hostname: if the host ends with `.` plus the endpoint
hostname, the bucket is the host prefix before that suffix and the key is
the path with its leading slash stripped; for every other host the host
itself is the bucket and the path with the leading slash stripped is the
key.  With an empty path the code panics (slice out of range) instead. -/
theorem c8_amended :
    (∀ (u : url.URL) (ep r pre : Str), u.host ≠ ep → u.path = '/' :: r →
      u.host = pre ++ '.' :: ep →
      method.newLocationFromURL u ep = .ok ⟨u, pre, r⟩) ∧
    (∀ (u : url.URL) (ep r : Str), u.host ≠ ep → u.path = '/' :: r →
      (∀ pre, u.host ≠ pre ++ '.' :: ep) →
      method.newLocationFromURL u ep = .ok ⟨u, u.host, r⟩) := by
  constructor
  · intro u ep r pre hne hpath hdot
    unfold method.newLocationFromURL
    rw [if_neg hne]
    have hsuf : goHasSuffix u.host ep = true := by
      rw [hdot, show pre ++ '.' :: ep = (pre ++ ['.']) ++ ep from by simp]
      exact goHasSuffix_append _ _
    rw [if_pos hsuf, hpath]
    show Except.ok (⟨u, goTrimSuffix u.host ('.' :: ep), r⟩ : method.objectLocation) =
      .ok ⟨u, pre, r⟩
    rw [hdot, goTrimSuffix_append]
  · intro u ep r hne hpath hnopre
    unfold method.newLocationFromURL
    rw [if_neg hne]
    by_cases hsuf : goHasSuffix u.host ep = true
    · rw [if_pos hsuf, hpath]
      show Except.ok (⟨u, goTrimSuffix u.host ('.' :: ep), r⟩ : method.objectLocation) =
        .ok ⟨u, u.host, r⟩
      rw [goTrimSuffix_of_no_suffix hnopre]
    · rw [if_neg hsuf, hpath]

/-- Witness for C8 at a virtual-hosted-style host and at a custom host. -/
theorem c8_amended_witness :
    method.newLocationFromURL
        ⟨str "s3", none, str "bucket.s3.amazonaws.com", str "/dists/stable/Release"⟩
        (str "s3.amazonaws.com") =
      .ok ⟨⟨str "s3", none, str "bucket.s3.amazonaws.com", str "/dists/stable/Release"⟩,
        str "bucket", str "dists/stable/Release"⟩ ∧
    method.newLocationFromURL ⟨str "s3", none, str "my-host", str "/x.deb"⟩
        (str "s3.amazonaws.com") =
      .ok ⟨⟨str "s3", none, str "my-host", str "/x.deb"⟩, str "my-host", str "x.deb"⟩ :=
  ⟨c8_amended.1 ⟨str "s3", none, str "bucket.s3.amazonaws.com", str "/dists/stable/Release"⟩
      (str "s3.amazonaws.com") (str "dists/stable/Release") (str "bucket")
      (by decide) (by decide) (by decide),
    c8_amended.2 ⟨str "s3", none, str "my-host", str "/x.deb"⟩
      (str "s3.amazonaws.com") (str "x.deb") (by decide) (by decide)
      (by
        intro pre h
        have hl := congrArg List.length h
        simp [str] at hl)⟩

/-- C5, counterexample: the claim asserts that for *every* URI containing
userinfo the slashes in the credential components are percent-encoded
before parsing so that credentials round-trip, but a URI whose userinfo has
no colon (`s3://a/b@host/x`, access key `a/b`, no secret) is passed through
unchanged — the colon-split of the pre-`@` text does not yield exactly two
tokens — and standard parsing then reads host `a` and no userinfo at all,
so the credentials are lost rather than round-tripped. -/
theorem c5_counterexample :
    method.preProcessURL (str "s3://a/b@host/x") = some (str "s3://a/b@host/x") ∧
    url.parse (str "s3://a/b@host/x") =
      some ⟨str "s3", none, str "a", str "/b@host/x"⟩ := by
  decide

set_option maxRecDepth 8000 in
/-- C5, amended: the slash-encoding step applies only when the URI contains
an `@`, the text before the first `@` is at least five characters long, and
that text, less the five scheme characters, splits on colons into exactly
two components.  With no `@` at all, or with an `@` at index five or later
whose pre-`@` text does not split into exactly two colon tokens, the URI is
passed through unchanged; with the first `@` before index five the Go slice
expression `sub[5:]` is out of range and the program panics.  When the
encoding does apply, the access key `fake-ac/cess-key-id` and secret
`fake-ac/cess-key-secret` embedded in a URI round-trip through location
resolution to their original unescaped values. -/
theorem c5_amended :
    (∀ u : Str, ('@' : Char) ∉ u → method.preProcessURL u = some u) ∧
    (∀ u : Str, ('@' : Char) ∈ u →
      ¬ (u.takeWhile (fun c => decide (c ≠ '@'))).length < 5 →
      (goSplit ':' ((u.takeWhile (fun c => decide (c ≠ '@'))).drop 5)).length ≠ 2 →
      method.preProcessURL u = some u) ∧
    (∀ u : Str, ('@' : Char) ∈ u →
      (u.takeWhile (fun c => decide (c ≠ '@'))).length < 5 →
      method.preProcessURL u = none) ∧
    method.newLocation
        (str "s3://fake-ac/cess-key-id:fake-ac/cess-key-secret@s3.amazonaws.com/apt-repo-bucket/apt/generic/python-bernhard_0.2.3-1_all.deb")
        (str "s3.amazonaws.com") =
      .ok ⟨⟨str "s3",
          some ⟨str "fake-ac/cess-key-id", some (str "fake-ac/cess-key-secret")⟩,
          str "s3.amazonaws.com",
          str "/apt-repo-bucket/apt/generic/python-bernhard_0.2.3-1_all.deb"⟩,
        str "apt-repo-bucket", str "apt/generic/python-bernhard_0.2.3-1_all.deb"⟩ := by
  have hrepl : ∀ v : Str, goReplaceAll v [] (goReplaceAll [] ['/'] (str "%2F")) = v := by
    intro v
    rw [show goReplaceAll ([] : Str) ['/'] (str "%2F") = [] from rfl]
    exact goReplaceAll_nil_nil v
  refine ⟨fun u hu => ?_, fun u hu h5 hlen => ?_, fun u hu h5 => ?_, by decide⟩
  · unfold method.preProcessURL
    rw [if_neg hu]
  · simp only [method.preProcessURL]
    rw [if_pos hu, if_neg h5]
    rcases htk : goSplit ':' ((u.takeWhile (fun c => decide (c ≠ '@'))).drop 5) with
      _ | ⟨a, tl⟩
    · exact absurd htk (goSplit_ne_nil _ _)
    · rcases tl with _ | ⟨b, tl2⟩
      · show some (goReplaceAll (goReplaceAll u [] (goReplaceAll [] ['/'] (str "%2F"))) []
            (goReplaceAll [] ['/'] (str "%2F"))) = some u
        rw [hrepl, hrepl]
      · rcases tl2 with _ | ⟨c, tl3⟩
        · rw [htk] at hlen
          exact absurd rfl hlen
        · show some (goReplaceAll (goReplaceAll u [] (goReplaceAll [] ['/'] (str "%2F"))) []
              (goReplaceAll [] ['/'] (str "%2F"))) = some u
          rw [hrepl, hrepl]
  · simp only [method.preProcessURL]
    rw [if_pos hu, if_pos h5]

/-- Witness for C5 at a URI with no `@`, at one whose pre-`@` text does not
split into exactly two colon tokens, and at one whose first `@` sits before
index five (the Go panic case). -/
theorem c5_amended_witness :
    method.preProcessURL (str "s3://host/x") = some (str "s3://host/x") ∧
    method.preProcessURL (str "s3://abc@host/x") = some (str "s3://abc@host/x") ∧
    method.preProcessURL (str "s3:@host/x") = none :=
  ⟨c5_amended.1 (str "s3://host/x") (by decide),
    c5_amended.2.1 (str "s3://abc@host/x") (by decide) (by decide) (by decide),
    c5_amended.2.2.1 (str "s3:@host/x") (by decide) (by decide)⟩

/-- An element of a list with a distinguished middle element, different from
that element, lies in the list with the middle removed. -/
theorem mem_mid_elim {α : Type} {x y : α} {t₁ t₂ : List α}
    (h : x ∈ t₁ ++ y :: t₂) (hne : x ≠ y) : x ∈ t₁ ++ t₂ := by
  rcases List.mem_append.mp h with h | h
  · exact List.mem_append.mpr (Or.inl h)
  · rcases List.mem_cons.mp h with h | h
    · exact absurd h hne
    · exact List.mem_append.mpr (Or.inr h)

/-- An element of a concatenation also lies in it with a middle element
inserted. -/
theorem mem_mid_intro {α : Type} {x z : α} {t₁ t₂ : List α}
    (h : x ∈ t₁ ++ t₂) : x ∈ t₁ ++ z :: t₂ := by
  rcases List.mem_append.mp h with h | h
  · exact List.mem_append.mpr (Or.inl h)
  · exact List.mem_append.mpr (Or.inr (List.mem_cons.mpr (Or.inr h)))

/-- One engine step from a state with the configuration gate closed (flag
down, no acquire handler past the gate) either applies a configuration
message, or is no backend operation and keeps the gate closed. -/
theorem method.step_gate {ep : Str → Option Str} {s s₁ : method.EngineState}
    {e : method.Ev} (h : method.Step ep s e s₁)
    (hc : s.configured = false)
    (hnr : ∀ m loc, method.HTask.acquireReady m loc ∉ s.tasks) :
    (method.isCfgApplied e = true ∧ method.isBackend e = false) ∨
      (method.isBackend e = false ∧ s₁.configured = false ∧
        ∀ m loc, method.HTask.acquireReady m loc ∉ s₁.tasks) := by
  cases h
  · -- frame
    refine Or.inr ⟨rfl, hc, fun m loc hmem => ?_⟩
    rcases List.mem_append.mp hmem with hm | hm
    · exact hnr m loc hm
    · simp at hm
  · -- eofInput
    exact Or.inr ⟨rfl, hc, hnr⟩
  · -- routeAcquire
    rename_i h1 h2 h3 h4 h5
    refine Or.inr ⟨rfl, hc, fun m loc hmem => ?_⟩
    refine hnr m loc ?_
    rw [h3]
    exact mem_mid_intro (mem_mid_elim hmem (fun hx => method.HTask.noConfusion hx))
  · -- cfgApplied
    exact Or.inl ⟨rfl, rfl⟩
  · -- ignored
    rename_i h1 h2 h3 h4 h5 h6
    refine Or.inr ⟨rfl, hc, fun m loc hmem => ?_⟩
    refine hnr m loc ?_
    rw [h3]
    exact mem_mid_intro hmem
  · -- parseFatal
    exact Or.inr ⟨rfl, hc, hnr⟩
  · -- cfgPanic
    exact Or.inr ⟨rfl, hc, hnr⟩
  · -- backendResolve
    rename_i h1 h2 h3 h4 h5 h6 h7
    rw [hc] at h4
    exact Bool.noConfusion h4
  · -- acquireFatal
    rename_i h1 h2 h3 h4 h5
    rw [hc] at h4
    exact Bool.noConfusion h4
  · -- probeNotFound
    rename_i m loc h1 h2 h3
    exfalso
    refine hnr m loc ?_
    rw [h3]
    exact List.mem_append.mpr (Or.inr (List.mem_cons_self _ _))
  · -- probeSuccess
    rename_i m loc h1 h2 h3
    exfalso
    refine hnr m loc ?_
    rw [h3]
    exact List.mem_append.mpr (Or.inr (List.mem_cons_self _ _))
  · -- probeFatal
    rename_i m loc h1 h2 h3
    exfalso
    refine hnr m loc ?_
    rw [h3]
    exact List.mem_append.mpr (Or.inr (List.mem_cons_self _ _))
  · -- runExit
    exact Or.inr ⟨rfl, hc, hnr⟩

/-- Along any execution from a state with the configuration gate closed,
every backend event is strictly preceded in the trace by a
configuration-applied event. -/
theorem method.exec_gate_aux {ep : Str → Option Str} {s s₂ : method.EngineState}
    {evs : List method.Ev} (hx : method.Exec ep s evs s₂) :
    s.configured = false →
    (∀ m loc, method.HTask.acquireReady m loc ∉ s.tasks) →
    ∀ p e q, evs = p ++ e :: q → method.isBackend e = true →
      ∃ ec, ec ∈ p ∧ method.isCfgApplied ec = true := by
  induction hx with
  | nil s₀ =>
    intro _ _ p e q hsplit _
    cases p <;> simp at hsplit
  | cons hstep hrest ih =>
    intro hc hnr p e q hsplit hb
    rcases method.step_gate hstep hc hnr with ⟨hcfg, hnb⟩ | ⟨hnb, hc₁, hnr₁⟩
    · cases p with
      | nil =>
        rw [List.nil_append] at hsplit
        injection hsplit with hh ht
        rw [hh] at hnb
        rw [hnb] at hb
        exact Bool.noConfusion hb
      | cons p₀ p₁ =>
        rw [List.cons_append] at hsplit
        injection hsplit with hh ht
        refine ⟨p₀, List.mem_cons_self _ _, ?_⟩
        rw [← hh]
        exact hcfg
    · cases p with
      | nil =>
        rw [List.nil_append] at hsplit
        injection hsplit with hh ht
        rw [hh] at hnb
        rw [hnb] at hb
        exact Bool.noConfusion hb
      | cons p₀ p₁ =>
        rw [List.cons_append] at hsplit
        injection hsplit with hh ht
        obtain ⟨ec, hm, hcf⟩ := ih hc₁ hnr₁ p₁ e q ht hb
        exact ⟨ec, List.mem_cons.mpr (Or.inr hm), hcf⟩

/-- Every engine step preserves the wait-group bookkeeping invariant. -/
theorem method.step_wg_inv {ep : Str → Option Str} {s s₁ : method.EngineState}
    {e : method.Ev} (h : method.Step ep s e s₁) (hinv : method.wgInv s) :
    method.wgInv s₁ := by
  obtain ⟨h1, h2⟩ := hinv
  cases h
  · -- frame
    rename_i hda hex hfo hin
    refine ⟨?_, fun hx => ?_⟩
    · simp [hfo] at h1 ⊢ <;> omega
    · simp [hex] at hx
  · -- eofInput
    rename_i hda hex hfo hin
    refine ⟨?_, fun hx => ?_⟩
    · simp [hfo] at h1 ⊢ <;> omega
    · simp [hex] at hx
  · -- routeAcquire
    rename_i hda hex htk hpa hst
    refine ⟨?_, fun hx => ?_⟩
    · simp [htk] at h1 ⊢ <;> omega
    · simp [hex] at hx
  · -- cfgApplied
    rename_i hda hex htk hpa hst hcf
    refine ⟨?_, fun hx => ?_⟩
    · simp [htk] at h1 ⊢ <;> omega
    · simp [hex] at hx
  · -- ignored
    rename_i hda hex htk hpa hs6 hs1
    refine ⟨?_, fun hx => ?_⟩
    · simp [htk] at h1 ⊢ <;> omega
    · simp [hex] at hx
  · -- parseFatal
    rename_i hda hex htk hpe
    refine ⟨?_, fun hx => ?_⟩
    · simpa using h1
    · simp [hex] at hx
  · -- cfgPanic
    rename_i hda hex htk hpa hst hcf
    refine ⟨?_, fun hx => ?_⟩
    · simpa using h1
    · simp [hex] at hx
  · -- backendResolve
    rename_i hda hex htk hcf hgf hep hnl
    refine ⟨?_, fun hx => ?_⟩
    · simp [htk] at h1 ⊢ <;> omega
    · simp [hex] at hx
  · -- acquireFatal
    rename_i hda hex htk hcf hor
    refine ⟨?_, fun hx => ?_⟩
    · simpa using h1
    · simp [hex] at hx
  · -- probeNotFound
    rename_i hda hex htk
    refine ⟨?_, fun hx => ?_⟩
    · simp [htk] at h1 ⊢ <;> omega
    · simp [hex] at hx
  · -- probeSuccess
    rename_i hda hex htk
    refine ⟨?_, fun hx => ?_⟩
    · simp [htk] at h1 ⊢ <;> omega
    · simp [hex] at hx
  · -- probeFatal
    rename_i hda hex htk
    refine ⟨?_, fun hx => ?_⟩
    · simpa using h1
    · simp [hex] at hx
  · -- runExit
    rename_i hda hex hwg
    rw [hwg] at h1
    have hdebt : (if s.framingOpen = true then 1 else 0) + s.tasks.length ≤ 0 := h1
    have hfo : s.framingOpen = false := by
      cases hq : s.framingOpen
      · rfl
      · rw [hq] at hdebt
        simp at hdebt
    have htk : s.tasks = [] := by
      rw [hfo] at hdebt
      simp at hdebt
      exact hdebt
    refine ⟨?_, fun _ => ⟨hwg, hfo, htk⟩⟩
    simp [hfo, htk, hwg] <;> omega

/-- The wait-group bookkeeping invariant holds along every execution. -/
theorem method.exec_wg_inv {ep : Str → Option Str} {s s₂ : method.EngineState}
    {evs : List method.Ev} (hx : method.Exec ep s evs s₂) :
    method.wgInv s → method.wgInv s₂ := by
  induction hx with
  | nil s₀ => exact id
  | cons hstep hrest ih => exact fun h => ih (method.step_wg_inv hstep h)

/-- Framing the configuration message. -/
theorem c3step1 : method.Step c3ep c3s0 (.frame c3cfgRaw) c3s1 :=
  @method.Step.frame c3ep c3s0 c3cfgRaw [c3acqRaw] rfl rfl rfl rfl

/-- Framing the acquire message. -/
theorem c3step2 : method.Step c3ep c3s1 (.frame c3acqRaw) c3s2 :=
  @method.Step.frame c3ep c3s1 c3acqRaw [] rfl rfl rfl rfl

/-- Applying the configuration message. -/
theorem c3step3 : method.Step c3ep c3s2 (.cfgApplied c3cfgMsg (str "us-west-2") []) c3s3 :=
  @method.Step.cfgApplied c3ep c3s2 [] [.raw c3acqRaw] c3cfgRaw c3cfgMsg
    (str "us-west-2") [] rfl rfl rfl (by decide) rfl (by decide)

/-- Routing the acquire message to its handler. -/
theorem c3step4 : method.Step c3ep c3s3 (.routeAcquire c3acqMsg) c3s4 :=
  @method.Step.routeAcquire c3ep c3s3 [] [] c3acqRaw c3acqMsg rfl rfl rfl (by decide) rfl

/-- The acquire handler passes the gate and resolves its location. -/
theorem c3step5 : method.Step c3ep c3s4 (.backendResolve c3acqMsg c3loc) c3s5 :=
  @method.Step.backendResolve c3ep c3s4 [] [] c3acqMsg
    (str "s3://my-bucket/path/file.deb") (str "s3.amazonaws.com") c3loc
    rfl rfl rfl rfl (by decide) rfl (by decide)

/-- A five-step execution: frame both messages, apply the configuration,
route the acquire, resolve its location. -/
theorem c3exec : method.Exec c3ep c3s0
    [.frame c3cfgRaw, .frame c3acqRaw, .cfgApplied c3cfgMsg (str "us-west-2") [],
      .routeAcquire c3acqMsg, .backendResolve c3acqMsg c3loc] c3s5 :=
  .cons c3step1 (.cons c3step2 (.cons c3step3 (.cons c3step4 (.cons c3step5 (.nil c3s5)))))

/-- A two-step execution on empty input: the reader releases its unit, then
`Run` returns. -/
theorem c2exec : method.Exec c2ep c2x0 [.eofInput, .runExit] c2x2 :=
  .cons (show method.Step c2ep c2x0 .eofInput c2x1 from
      @method.Step.eofInput c2ep c2x0 rfl rfl rfl rfl)
    (.cons (show method.Step c2ep c2x1 .runExit c2x2 from
      @method.Step.runExit c2ep c2x1 rfl rfl rfl)
    (.nil c2x2))

/-- C3: in every execution of the engine from its initial state, any backend
operation event — endpoint/location resolution or object probe/transfer by
an acquire handler — is strictly preceded in the trace by the event of a
configuration (601) message having been fully applied (region and role
stored, `configured` set true); so no acquire handler begins backend calls
before a configuration message has been applied. -/
theorem c3_acquire_gated (ep : Str → Option Str) (input : List Str)
    (evs : List method.Ev) (sf : method.EngineState)
    (hx : method.Exec ep (method.initState input) evs sf)
    (p : List method.Ev) (e : method.Ev) (q : List method.Ev)
    (hsplit : evs = p ++ e :: q) (hb : method.isBackend e = true) :
    ∃ ec, ec ∈ p ∧ method.isCfgApplied ec = true :=
  method.exec_gate_aux hx rfl (fun m loc h => List.not_mem_nil _ h) p e q hsplit hb

/-- Witness: a concrete five-step execution — frame a configuration message,
frame an acquire message, apply the configuration, route the acquire,
resolve the location — in which the backend-resolution event is preceded by
the configuration-applied event. -/
theorem c3_acquire_gated_witness :
    ∃ ec, ec ∈ [method.Ev.frame c3cfgRaw, method.Ev.frame c3acqRaw,
        method.Ev.cfgApplied c3cfgMsg (str "us-west-2") [],
        method.Ev.routeAcquire c3acqMsg] ∧
      method.isCfgApplied ec = true :=
  c3_acquire_gated c3ep [c3cfgRaw, c3acqRaw]
    [method.Ev.frame c3cfgRaw, method.Ev.frame c3acqRaw,
      method.Ev.cfgApplied c3cfgMsg (str "us-west-2") [],
      method.Ev.routeAcquire c3acqMsg, method.Ev.backendResolve c3acqMsg c3loc]
    c3s5 c3exec
    [method.Ev.frame c3cfgRaw, method.Ev.frame c3acqRaw,
      method.Ev.cfgApplied c3cfgMsg (str "us-west-2") [],
      method.Ev.routeAcquire c3acqMsg]
    (method.Ev.backendResolve c3acqMsg c3loc) [] rfl rfl

/-- C2 counterexample: a framed message whose status 102 lies outside the
supported set is dispatched and its handler returns, removing the task,
without the wait-group counter being decremented — `handleBytes` calls
neither `configure` nor `uriAcquire` for it and itself never calls
`wg.Done`, refuting "decremented by exactly one when that message's handling
terminates, whatever the handling outcome". -/
theorem c2_counterexample :
    method.Step c2ep c2s (.ignored 102) c2s' ∧
    c2s.tasks = [method.HTask.raw c2raw] ∧ c2s'.tasks = [] ∧ c2s'.wg = c2s.wg ∧
    message.parse c2raw = .ok c2msg ∧ c2msg.header.status = 102 :=
  ⟨@method.Step.ignored c2ep c2s [] [] c2raw c2msg rfl rfl rfl
      (by decide) (by decide) (by decide),
    rfl, rfl, rfl, by decide, rfl⟩

/-- C2 (amended): the wait-group accounting that actually holds.  Along any
execution from the initial state the counter bounds the open framing unit
plus the in-flight handlers, and once `Run` has returned the counter is
zero, framing has finished and no handler is in flight; step by step,
framing a message increments the counter by one, end of input and a fully
applied configuration message decrement it by one, a completed acquire
(success or not-found) decrements it by one, a handler for a status outside
the supported set terminates without touching it, a fatal error kills the
process without touching it, and `Run` returns only at counter zero. -/
theorem c2_amended (ep : Str → Option Str) (input : List Str)
    (evs : List method.Ev) (sf : method.EngineState)
    (hx : method.Exec ep (method.initState input) evs sf) :
    ((if sf.framingOpen = true then 1 else 0) + sf.tasks.length ≤ sf.wg ∧
      (sf.exited = true → sf.wg = 0 ∧ sf.framingOpen = false ∧ sf.tasks = [])) ∧
    ∀ s₁ s₂ : method.EngineState, ∀ e : method.Ev, method.Step ep s₁ e s₂ →
      ((∃ b, e = method.Ev.frame b) → s₂.wg = s₁.wg + 1) ∧
      (e = method.Ev.eofInput → s₂.wg = s₁.wg - 1 ∧ s₂.framingOpen = false) ∧
      ((∃ m r a, e = method.Ev.cfgApplied m r a) → s₂.wg = s₁.wg - 1 ∧
        s₂.tasks.length + 1 = s₁.tasks.length ∧ s₂.configured = true) ∧
      ((∃ bk k, e = method.Ev.backendProbe bk k .notFound ∨
          e = method.Ev.backendProbe bk k .success) →
        s₂.wg = s₁.wg - 1 ∧ s₂.tasks.length + 1 = s₁.tasks.length) ∧
      ((∃ st, e = method.Ev.ignored st) →
        s₂.wg = s₁.wg ∧ s₂.tasks.length + 1 = s₁.tasks.length) ∧
      (e = method.Ev.fatal → s₂.wg = s₁.wg) ∧
      (e = method.Ev.runExit → s₁.wg = 0 ∧ s₂.exited = true) := by
  constructor
  · exact method.exec_wg_inv hx (by constructor <;> simp [method.initState])
  · intro s₁ s₂ e h
    refine ⟨?_, ?_, ?_, ?_, ?_, ?_, ?_⟩
    · rintro ⟨b, rfl⟩
      cases h
      rfl
    · rintro rfl
      cases h
      exact ⟨rfl, rfl⟩
    · rintro ⟨m, r, a, rfl⟩
      cases h
      rename_i hda hex htk hpa hst hcf
      refine ⟨rfl, ?_, rfl⟩
      simp only [htk, List.length_append, List.length_cons]
      omega
    · rintro ⟨bk, k, hor⟩
      rcases hor with rfl | rfl
      · cases h
        rename_i hda hex htk
        refine ⟨rfl, ?_⟩
        simp only [htk, List.length_append, List.length_cons]
        omega
      · cases h
        rename_i hda hex htk
        refine ⟨rfl, ?_⟩
        simp only [htk, List.length_append, List.length_cons]
        omega
    · rintro ⟨st, rfl⟩
      cases h
      rename_i hda hex htk hpa hs6 hs1
      refine ⟨rfl, ?_⟩
      simp only [htk, List.length_append, List.length_cons]
      omega
    · rintro rfl
      cases h <;> rfl
    · rintro rfl
      cases h
      rename_i hda hex hwg
      exact ⟨hwg, rfl⟩

/-- Witness: the amended accounting evaluated on a concrete run over empty
input that frames nothing, closes framing and exits. -/
theorem c2_amended_witness :
    (if c2x2.framingOpen = true then 1 else 0) + c2x2.tasks.length ≤ c2x2.wg ∧
    (c2x2.exited = true → c2x2.wg = 0 ∧ c2x2.framingOpen = false ∧ c2x2.tasks = []) :=
  (c2_amended c2ep [] [.eofInput, .runExit] c2x2 c2exec).1

/-- C7: `method.notFound` builds the `400 URI Failure` response with the
fixed not-found text, but emits the `URI` field first and the `Message`
field second — the claim, the specification's table and the Go function's
own doc comment put `Message` first. -/
theorem c7_notFound_field_order (uriStr : Str) :
    (method.notFound uriStr).header = ⟨400, str "URI Failure"⟩ ∧
    (method.notFound uriStr).fields =
      [⟨str "URI", uriStr⟩, ⟨str "Message", method.fieldValueNotFound⟩] ∧
    (method.notFound uriStr).fields.map message.Field.name ≠
      [str "Message", str "URI"] :=
  ⟨rfl, rfl, show [str "URI", str "Message"] ≠ [str "Message", str "URI"] from by decide⟩
